import Mathlib

/-!
# taraxa-delegator: the claim-and-redelegate workflow of `main.go`

A shallow embedding of `src/main.go`.

* Go `string`s are lists of characters, `*big.Int` values are `Option Int`
  (`none` is the nil pointer), `uint64`/`int64` are `Nat`/`Int` with explicit
  wrap-around where the source converts between widths, and the one `float64`
  the program builds from an integer is the integer it rounds to.
* `math/big` and `shopspring/decimal` are linked libraries; the functions of
  them that `main.go` calls are transcribed from their Go implementation
  (`SetString`, `String`, `Quo`, `Int64`, `Mul`, `QuoRem`, `DivRound`, `Div`,
  `String`, `NewFromString`).
* The chain (RPC client and contract binding) is an oracle, `World`, that
  fixes the result of every call; a run of `main` is the list of calls it
  makes, in order, with their outcome and the session nonce after each.
-/

namespace TaraxaDelegator

deriving instance DecidableEq for Except

/-! ## Strings of digits (`math/big`) -/

/-- The digit character of `d`, for `d < 10`: the byte `'0' + d`. -/
def digitChar (d : Nat) : Char := Char.ofNat (48 + d)

/-- Decimal digits of `n`, least significant first. -/
def natDigitsRev : Nat → Nat → List Char
  | 0, _ => []
  | fuel + 1, n =>
    digitChar (n % 10) :: (if n / 10 = 0 then [] else natDigitsRev fuel (n / 10))

/-- Base-10 text of a natural number, most significant digit first. -/
def natString (n : Nat) : List Char := (natDigitsRev (n + 1) n).reverse

/-- The method `(*big.Int).String` on a non-nil receiver. -/
def intString (v : Int) : List Char :=
  if v < 0 then '-' :: natString v.natAbs else natString v.natAbs

/-- The method `(*big.Int).String`: the nil pointer prints as `<nil>`. -/
def bigString : Option Int → List Char
  | none => ['<', 'n', 'i', 'l', '>']
  | some v => intString v

/-- The helper `scanSign` of `math/big`: an optional leading `+` or `-`. -/
def scanSign : List Char → Bool × List Char
  | '+' :: r => (false, r)
  | '-' :: r => (true, r)
  | s => (false, s)

/-- The base-10 digit loop of `nat.scan`: reads the longest run of digits,
returns the number read, how many digits it had, and the unread rest. -/
def scanMantissa : List Char → Nat → Nat → Nat × Nat × List Char
  | [], acc, count => (acc, count, [])
  | c :: r, acc, count =>
    if c.isDigit then scanMantissa r (acc * 10 + (c.toNat - 48)) (count + 1)
    else (acc, count, c :: r)

/-- The call `new(big.Int).SetString(s, 10)`: the value the receiver holds
afterwards and the `ok` flag. On failure the library documents the value as
undefined; this is what its implementation leaves there: the digits scanned
before the offending byte (zero when there were none). -/
def SetString (s : List Char) : Int × Bool :=
  let sr := scanSign s
  let m := scanMantissa sr.2 0 0
  if m.2.1 = 0 then (0, false)
  else ((if sr.1 then -(m.1 : Int) else (m.1 : Int)), m.2.2.isEmpty)

/-- The conversion `int64(u)` of a 64-bit pattern: two's complement. -/
def wrapInt64 (x : Int) : Int := (x + 2 ^ 63) % 2 ^ 64 - 2 ^ 63

/-- The method `(*big.Int).Int64`: the low 64 bits of the magnitude read as an
`int64`, negated (in `int64`) for a negative receiver. -/
def Int64 (x : Int) : Int :=
  let v := wrapInt64 ((x.natAbs % 2 ^ 64 : Nat) : Int)
  if x < 0 then wrapInt64 (-v) else v

/-- The method `(*big.Int).Uint64`: the low 64 bits of the magnitude. -/
def Uint64 (x : Int) : Nat := x.natAbs % 2 ^ 64

/-! ## `shopspring/decimal` -/

/-- A `decimal.Decimal`: the number `value * 10 ^ exp`. -/
structure Decimal where
  value : Int
  exp : Int
  deriving DecidableEq, Repr

/-- What went wrong when a conversion yields no value. -/
inductive Fault where
  /-- a run-time panic (nil dereference, division by zero, exponent overflow) -/
  | panic
  deriving DecidableEq, Repr

def maxInt32 : Int := 2 ^ 31 - 1

def minInt32 : Int := -(2 ^ 31)

namespace Decimal

/-- The number a decimal denotes. -/
def toRat (d : Decimal) : ℚ := (d.value : ℚ) * (10 : ℚ) ^ d.exp

/-- The zero value `Decimal{}`, which the library reads as 0. -/
def zero : Decimal := ⟨0, 0⟩

/-- The method `Decimal.Mul`: exact; panics when the exponent leaves `int32`. -/
def Mul (d d2 : Decimal) : Except Fault Decimal :=
  let expInt64 := d.exp + d2.exp
  if expInt64 > maxInt32 ∨ expInt64 < minInt32 then .error .panic
  else .ok ⟨d.value * d2.value, expInt64⟩

/-- The method `Decimal.rescale`: the same number at exponent `exp`, truncated
when that drops digits. -/
def rescale (d : Decimal) (exp : Int) : Decimal :=
  if d.exp = exp then d
  else if exp > d.exp then ⟨Int.tdiv d.value (10 ^ (exp - d.exp).toNat), exp⟩
  else ⟨d.value * 10 ^ (d.exp - exp).toNat, exp⟩

/-- The method `Decimal.Abs`. -/
def Abs (d : Decimal) : Decimal := ⟨|d.value|, d.exp⟩

/-- The method `Decimal.Cmp`, as -1, 0 or 1. -/
def Cmp (d d2 : Decimal) : Int :=
  let m := min d.exp d2.exp
  let a := (d.rescale m).value
  let b := (d2.rescale m).value
  if a < b then -1 else if a = b then 0 else 1

/-- The method `Decimal.Add`. -/
def Add (d d2 : Decimal) : Decimal :=
  let m := min d.exp d2.exp
  ⟨(d.rescale m).value + (d2.rescale m).value, m⟩

/-- The method `Decimal.Sub`. -/
def Sub (d d2 : Decimal) : Decimal :=
  let m := min d.exp d2.exp
  ⟨(d.rescale m).value - (d2.rescale m).value, m⟩

/-- The method `Decimal.QuoRem`: quotient truncated to `precision` decimal
places and the remainder; panics on a zero divisor. -/
def QuoRem (d d2 : Decimal) (precision : Int) : Except Fault (Decimal × Decimal) :=
  if d2.value = 0 then .error .panic
  else
    let scale := -precision
    let e := d.exp - d2.exp - scale
    if e > maxInt32 ∨ e < minInt32 then .error .panic
    else if e < 0 then
      let aa := d.value
      let bb := d2.value * 10 ^ (-e).toNat
      .ok (⟨Int.tdiv aa bb, scale⟩, ⟨Int.tmod aa bb, d.exp⟩)
    else
      let aa := d.value * 10 ^ e.toNat
      let bb := d2.value
      .ok (⟨Int.tdiv aa bb, scale⟩, ⟨Int.tmod aa bb, scale + d2.exp⟩)

/-- The method `Decimal.DivRound`: the quotient rounded half away from zero at
`precision` decimal places. -/
def DivRound (d d2 : Decimal) (precision : Int) : Except Fault Decimal :=
  match d.QuoRem d2 precision with
  | .error f => .error f
  | .ok (q, r) =>
    let r2 : Decimal := ⟨|r.value| * 2, r.exp + precision⟩
    if r2.Cmp d2.Abs < 0 then .ok q
    else if d.value.sign * d2.value.sign < 0 then .ok (q.Sub ⟨1, -precision⟩)
    else .ok (q.Add ⟨1, -precision⟩)

/-- The package variable `decimal.DivisionPrecision`, never reassigned by the
program. -/
def DivisionPrecision : Int := 16

/-- The method `Decimal.Div`: `DivRound` at `DivisionPrecision` places. -/
def Div (d d2 : Decimal) : Except Fault Decimal := d.DivRound d2 DivisionPrecision

/-- The method `Decimal.Pow` at a non-negative whole exponent: the product of
`n` copies of `d`, built with `Mul`. -/
def Pow (d : Decimal) : Nat → Except Fault Decimal
  | 0 => .ok ⟨1, 0⟩
  | n + 1 =>
    match d.Pow n with
    | .error f => .error f
    | .ok t => t.Mul d

/-- Drops the trailing zeros of a digit string. -/
def trimZeros (s : List Char) : List Char := (s.reverse.dropWhile (· = '0')).reverse

/-- The method `Decimal.String`: plain decimal text, trailing fractional zeros
trimmed. -/
def String (d : Decimal) : List Char :=
  if d.exp ≥ 0 then intString (d.rescale 0).value
  else
    let str := natString d.value.natAbs
    let n := (-d.exp).toNat
    let intPart := if str.length > n then str.take (str.length - n) else ['0']
    let fractionalPart :=
      trimZeros (if str.length > n then str.drop (str.length - n)
        else List.replicate (n - str.length) '0' ++ str)
    let number := if fractionalPart.length > 0 then intPart ++ '.' :: fractionalPart else intPart
    if d.value < 0 then '-' :: number else number

end Decimal

/-- The calls `strconv.ParseInt(s, 10, _)` and `SetString(s, 10)` as
`decimal.NewFromString` uses them: a whole string of sign and digits. -/
def parseInteger (s : List Char) : Option Int :=
  let r := SetString s
  if r.2 then some r.1 else none

/-- The function `decimal.NewFromString`; `none` is the error result. -/
def NewFromString (value : List Char) : Option Decimal :=
  let eIndex := value.findIdx (fun c => c = 'e' ∨ c = 'E')
  let mant := if eIndex < value.length then value.take eIndex else value
  let expPart : Option Int :=
    if eIndex < value.length then
      match parseInteger (value.drop (eIndex + 1)) with
      | some x => if x > maxInt32 ∨ x < minInt32 then none else some x
      | none => none
    else some 0
  match expPart with
  | none => none
  | some exp0 =>
    if mant.count '.' > 1 then none
    else
      let pIndex := mant.findIdx (· = '.')
      let digits := if pIndex < mant.length then mant.take pIndex ++ mant.drop (pIndex + 1) else mant
      let exp : Int :=
        if pIndex < mant.length then exp0 - ((mant.drop (pIndex + 1)).length : Int) else exp0
      match parseInteger digits with
      | none => none
      | some v => if exp < minInt32 ∨ exp > maxInt32 then none else some ⟨v, exp⟩

/-- The expression `decimal.NewFromFloat(float64(10))`: the digit 1 at exponent 1. -/
def ten : Decimal := ⟨1, 1⟩

/-- Strips trailing zeros of an integer into the exponent, as the shortest
digit string of a float does. -/
def shortestDigits : Nat → Int → Int → Decimal
  | 0, v, e => ⟨v, e⟩
  | fuel + 1, v, e =>
    if v ≠ 0 ∧ v % 10 = 0 then shortestDigits fuel (v / 10) (e + 1) else ⟨v, e⟩

/-- Number of binary digits of `n`, for `n < 2 ^ fuel`. -/
def bitLength : Nat → Nat → Nat
  | 0, _ => 0
  | fuel + 1, n => if n = 0 then 0 else bitLength fuel (n / 2) + 1

/-- The conversion `float64(v)` of an `int64`, as the integer the float holds:
`v` rounded to 53 significant bits, to nearest and on a tie to the even
significand. -/
def float64 (v : Int) : Int :=
  let a := v.natAbs
  let sh := bitLength 64 a - 53
  let q := a / 2 ^ sh
  let r := a % 2 ^ sh
  let q1 := if 2 * r > 2 ^ sh ∨ (2 * r = 2 ^ sh ∧ q % 2 = 1) then q + 1 else q
  v.sign * ((q1 * 2 ^ sh : Nat) : Int)

/-- The function `decimal.NewFromFloat` on a float that holds the integer `f`:
the shortest digit string that reads back as the float, trailing zeros moved
into the exponent. Up to 2^53 in magnitude every integer is a float of its own
and the digits are those of `f`. For a larger float the digits are chosen by the
library's binary-to-decimal conversion, which is not part of the repository:
`digits f` is the integer they spell, a parameter of the model. -/
def NewFromFloat (digits : Int → Int) (f : Int) : Decimal :=
  if f.natAbs ≤ 2 ^ 53 then shortestDigits 16 f 0 else shortestDigits 20 (digits f) 0

/-! ## The unit converter of `main.go` -/

/-- The dynamic type of the `ivalue interface{}` argument. -/
inductive IValue where
  | str (v : List Char)
  | bigInt (v : Option Int)
  | other
  deriving DecidableEq, Repr

/-- The type switch shared by `ToDecimal` and `ToRoundedTara`: a string is
parsed into a fresh `big.Int`, a `*big.Int` is taken as is (nil included), any
other type leaves the fresh zero. -/
def IValue.value : IValue → Option Int
  | .str v => some (SetString v).1
  | .bigInt v => v
  | .other => some 0

/-- The function `ToDecimal`: `num.Div(mul)` with `mul = 10^decimals`. The scale
`decimals` is a natural number: the program and every property below use
non-negative scales only. -/
def ToDecimal (ivalue : IValue) (decimals : Nat) : Except Fault Decimal :=
  let value := ivalue.value
  match ten.Pow decimals with
  | .error f => .error f
  | .ok mul =>
    let num := (NewFromString (bigString value)).getD Decimal.zero
    num.Div mul

/-- The function `ToRoundedTara`: `Quo` by `int64(math.Pow10(18))`, then
`Int64()`. A nil `*big.Int` is dereferenced by `Quo`. -/
def ToRoundedTara (ivalue : IValue) : Except Fault Int :=
  match ivalue.value with
  | none => .error .panic
  | some value => .ok (Int64 (Int.tdiv value (10 ^ 18)))

/-- The dynamic type of the `iamount interface{}` argument of `ToWei`. The
`float64` case carries a binary float and is not represented. -/
inductive IAmount where
  | str (v : List Char)
  | int64 (v : Int)
  | decimal (v : Decimal)
  | decimalPtr (v : Option Decimal)
  | other
  deriving DecidableEq, Repr

/-- The type switch of `ToWei`; `digits` is the parameter of `NewFromFloat`. -/
def IAmount.amount (digits : Int → Int) : IAmount → Except Fault Decimal
  | .str v => .ok ((NewFromString v).getD Decimal.zero)
  | .int64 v => .ok (NewFromFloat digits (float64 v))
  | .decimal v => .ok v
  | .decimalPtr none => .error .panic
  | .decimalPtr (some v) => .ok v
  | .other => .ok Decimal.zero

/-- The function `ToWei`: `amount.Mul(mul)` printed and read back with
`SetString`, whose `ok` flag is dropped; `digits` is the parameter of
`NewFromFloat`. -/
def ToWei (digits : Int → Int) (iamount : IAmount) (decimals : Nat) : Except Fault Int :=
  match iamount.amount digits with
  | .error f => .error f
  | .ok amount =>
    match ten.Pow decimals with
    | .error f => .error f
    | .ok mul =>
      match amount.Mul mul with
      | .error f => .error f
      | .ok result => .ok (SetString result.String).1

/-! ## The chain and the run of `main` -/

/-- An account address (`common.Address`), as a number. -/
abbrev Address := Nat

/-- The package variable `delegateTo`. -/
def delegateTo : Address := 0xe50b5452B2E8435404DBe06E6a05410C47B7583D

/-- One element of `delegations.Delegations`. -/
structure DelegationData where
  Account : Address
  Stake : Option Int
  Rewards : Option Int
  deriving DecidableEq, Repr

/-- One element of `validators.Validators`. -/
structure ValidatorData where
  Account : Address
  TotalStake : Option Int
  CommissionReward : Option Int
  deriving DecidableEq, Repr

/-- The fields of `bind.TransactOpts` that `main.go` sets. -/
structure TransactOpts where
  Nonce : Int
  Value : Int
  GasLimit : Nat
  GasPrice : Option Int
  deriving DecidableEq, Repr

/-- Every call `main` makes that can fail. A submission records `auth.Nonce` and
`auth.Value` as they are when it is made. -/
inductive Call where
  | hexToECDSA
  | dial
  | chainID
  | pendingNonceAt
  | suggestGasPrice
  | newKeyedTransactor
  | blockNumber
  | newTaraxaDposClient
  | getDelegations
  | claimRewards (validator : Address) (nonce value : Int)
  | getValidatorsFor
  | claimCommissionRewards (validator : Address) (nonce value : Int)
  | pollPendingNonce (currentNonce : Nat)
  | balanceAt
  | delegate (validator : Address) (nonce value : Int)
  deriving DecidableEq, Repr

/-- One call of a run: whether it succeeded, and `auth.Nonce` once it is over
(`none` while no session exists). -/
structure Step where
  call : Call
  ok : Bool
  nonce : Option Int
  deriving DecidableEq, Repr

/-- How a run ends. -/
inductive Outcome where
  /-- `main` ran to its last line -/
  | finished
  /-- `main` printed an error and returned -/
  | aborted
  /-- a run-time panic -/
  | panicked
  /-- the barrier was still polling when the fuel ran out -/
  | polling
  deriving DecidableEq, Repr

/-- The outcome a failed conversion gives the run. -/
def Fault.outcome : Fault → Outcome
  | .panic => .panicked

/-- A run of the program: its calls in order and how it ended. -/
structure Run where
  trace : List Step
  outcome : Outcome
  deriving DecidableEq, Repr

/-- The run `r` preceded by the calls `pre`. -/
def Run.after (r : Run) (pre : List Step) : Run := ⟨pre ++ r.trace, r.outcome⟩

/-- The world as the program sees it: the result of every call to the chain, and
the one choice of the decimal library the model leaves open. Where the source
reads a returned value without looking at the error, the value and the error
flag are both given (`true` is success). -/
structure World where
  hexToECDSA : Bool
  dial : Bool
  chainID : Option Int
  pendingNonceAt : Nat × Bool
  suggestGasPrice : Option Int
  newKeyedTransactor : Bool
  blockNumber : Bool
  newTaraxaDposClient : Bool
  getDelegations : Option (List DelegationData)
  getValidatorsFor : Option (List ValidatorData)
  /-- outcome of the `k`-th transaction submission of the run, `k = 0, 1, ...` -/
  submit : Nat → Bool
  /-- result of the `i`-th `PendingNonceAt` of the barrier -/
  polls : Nat → Nat × Bool
  balanceAt : Option Int × Bool
  /-- the integer `decimal.NewFromFloat` makes of a float beyond 2^53: the
  parameter of `NewFromFloat`, fixed by the linked library and not by the chain -/
  newFromFloat : Int → Int

/-- The function `prepareTransactOps`: three calls, each error only printed;
a failed transactor construction returns nil, which line 117 dereferences. -/
def prepareTransactOps (w : World) : List Step × Option TransactOpts :=
  let queries : List Step :=
    [⟨.pendingNonceAt, w.pendingNonceAt.2, none⟩,
     ⟨.suggestGasPrice, w.suggestGasPrice.isSome, none⟩]
  if w.newKeyedTransactor then
    let auth : TransactOpts :=
      { Nonce := wrapInt64 w.pendingNonceAt.1, Value := 0, GasLimit := 300000,
        GasPrice := w.suggestGasPrice }
    (queries ++ [⟨.newKeyedTransactor, true, some auth.Nonce⟩], some auth)
  else (queries ++ [⟨.newKeyedTransactor, false, none⟩], none)

/-- A position to claim: the account and the two amounts the loop prints. -/
structure Position where
  Account : Address
  Stake : Option Int
  Reward : Option Int
  deriving DecidableEq, Repr

def DelegationData.position (d : DelegationData) : Position :=
  ⟨d.Account, d.Stake, d.Rewards⟩

def ValidatorData.position (v : ValidatorData) : Position :=
  ⟨v.Account, v.TotalStake, v.CommissionReward⟩

/-- What a claim loop leaves behind. -/
structure LoopResult where
  steps : List Step
  auth : TransactOpts
  /-- submissions attempted so far in the run -/
  attempts : Nat
  /-- `none`: the loop ran through; `some o`: the run ended inside it -/
  stop : Option Outcome
  deriving DecidableEq, Repr

/-- The two `for ... range` loops of `main` (lines 57-65 and 74-82), which
differ in the contract method `call` only: print the two amounts, submit the
claim with `auth`, return on error, else `auth.Nonce += 1`. -/
def claimLoop (w : World) (call : Address → Int → Int → Call) :
    List Position → Nat → TransactOpts → LoopResult
  | [], k, auth => ⟨[], auth, k, none⟩
  | p :: rest, k, auth =>
    match ToDecimal (.bigInt p.Stake) 18, ToDecimal (.bigInt p.Reward) 18 with
    | .ok _, .ok _ =>
      if w.submit k then
        let auth1 : TransactOpts := { auth with Nonce := auth.Nonce + 1 }
        let r := claimLoop w call rest (k + 1) auth1
        { r with steps := ⟨call p.Account auth.Nonce auth.Value, true, some auth1.Nonce⟩ :: r.steps }
      else
        ⟨[⟨call p.Account auth.Nonce auth.Value, false, some auth.Nonce⟩], auth, k + 1,
          some .aborted⟩
    | _, _ => ⟨[], auth, k, some .panicked⟩

/-- The function `waitForAllConfirmed`, polling from poll number `i` with
`fuel` polls at most: the poll results it saw, and whether it returned. The
error of a poll is printed and the returned `nonce` compared all the same. -/
def waitForAllConfirmed (polls : Nat → Nat × Bool) (currentNonce : Nat) :
    Nat → Nat → List (Nat × Bool) × Bool
  | 0, _ => ([], false)
  | fuel + 1, i =>
    if (polls i).1 = currentNonce then ([polls i], true)
    else
      let r := waitForAllConfirmed polls currentNonce fuel (i + 1)
      (polls i :: r.1, r.2)

/-- Lines 87-99 of `main`: read the balance (error dropped), print it, and
delegate the whole units when there is more than one. `k` is the number of
submissions attempted before. -/
def delegationStep (w : World) (auth : TransactOpts) (k : Nat) : Run :=
  let read : Step := ⟨.balanceAt, w.balanceAt.2, some auth.Nonce⟩
  let balance : IValue := .bigInt w.balanceAt.1
  match ToDecimal balance 18 with
  | .error f => ⟨[read], f.outcome⟩
  | .ok _ =>
    match ToRoundedTara balance with
    | .error f => ⟨[read], f.outcome⟩
    | .ok whole =>
      if whole > 1 then
        match ToWei w.newFromFloat (.int64 whole) 18 with
        | .error f => ⟨[read], f.outcome⟩
        | .ok value =>
          let auth1 : TransactOpts := { auth with Value := value }
          ⟨[read, ⟨.delegate delegateTo auth1.Nonce auth1.Value, w.submit k, some auth1.Nonce⟩],
            if w.submit k then .finished else .aborted⟩
      else ⟨[read], .finished⟩

/-- The steps of the barrier's polls. -/
def pollSteps (currentNonce : Nat) (auth : TransactOpts) (seen : List (Nat × Bool)) : List Step :=
  seen.map fun p => ⟨.pollPendingNonce currentNonce, p.2, some auth.Nonce⟩

/-- Lines 84-99 of `main`: the barrier on `auth.Nonce.Uint64()`, then the
delegation step. -/
def settleAndDelegate (w : World) (fuel : Nat) (auth : TransactOpts) (k : Nat) : Run :=
  let currentNonce := Uint64 auth.Nonce
  let b := waitForAllConfirmed w.polls currentNonce fuel 0
  if b.2 then (delegationStep w auth k).after (pollSteps currentNonce auth b.1)
  else ⟨pollSteps currentNonce auth b.1, .polling⟩

/-- Lines 67-82 of `main`, then the rest: discover the validators, claim their
commission, settle, delegate. -/
def claimValidators (w : World) (fuel : Nat) (auth : TransactOpts) (k : Nat) : Run :=
  match w.getValidatorsFor with
  | none => ⟨[⟨.getValidatorsFor, false, some auth.Nonce⟩], .aborted⟩
  | some validators =>
    let r := claimLoop w .claimCommissionRewards (validators.map ValidatorData.position) k auth
    let pre : List Step := ⟨.getValidatorsFor, true, some auth.Nonce⟩ :: r.steps
    match r.stop with
    | some o => ⟨pre, o⟩
    | none => (settleAndDelegate w fuel r.auth r.attempts).after pre

/-- Lines 50-100 of `main`, run with the session `auth`: discover the
delegations, claim their rewards, then `claimValidators`. -/
def workflow (w : World) (fuel : Nat) (auth : TransactOpts) : Run :=
  match w.getDelegations with
  | none => ⟨[⟨.getDelegations, false, some auth.Nonce⟩], .aborted⟩
  | some delegations =>
    let r := claimLoop w .claimRewards (delegations.map DelegationData.position) 0 auth
    let pre : List Step := ⟨.getDelegations, true, some auth.Nonce⟩ :: r.steps
    match r.stop with
    | some o => ⟨pre, o⟩
    | none => (claimValidators w fuel r.auth r.attempts).after pre

/-- The function `main`. The key constant is a placeholder to fill in, so
whether `HexToECDSA` accepts it is part of the world; `getKeys` dereferences the
nil key when it does not. The errors of `ChainID` and `BlockNumber` are dropped. -/
def main (w : World) (fuel : Nat) : Run :=
  if w.hexToECDSA then
    if w.dial then
      let opened : List Step :=
        [⟨.hexToECDSA, true, none⟩, ⟨.dial, true, none⟩, ⟨.chainID, w.chainID.isSome, none⟩]
      match prepareTransactOps w with
      | (prepared, none) => ⟨opened ++ prepared, .panicked⟩
      | (prepared, some auth) =>
        let block : Step := ⟨.blockNumber, w.blockNumber, some auth.Nonce⟩
        if w.newTaraxaDposClient then
          (workflow w fuel auth).after
            (opened ++ prepared ++ [block, ⟨.newTaraxaDposClient, true, some auth.Nonce⟩])
        else
          ⟨opened ++ prepared ++ [block, ⟨.newTaraxaDposClient, false, some auth.Nonce⟩], .aborted⟩
    else ⟨[⟨.hexToECDSA, true, none⟩, ⟨.dial, false, none⟩], .aborted⟩
  else ⟨[⟨.hexToECDSA, false, none⟩], .panicked⟩

/-! ## Reading a run -/

/-- The three contract writes. -/
def Call.isSubmission : Call → Bool
  | .claimRewards _ _ _ => true
  | .claimCommissionRewards _ _ _ => true
  | .delegate _ _ _ => true
  | _ => false

/-- The two claim methods. -/
def Call.isClaim : Call → Bool
  | .claimRewards _ _ _ => true
  | .claimCommissionRewards _ _ _ => true
  | _ => false

/-- The polls of the barrier. -/
def Call.isPoll : Call → Bool
  | .pollPendingNonce _ => true
  | _ => false

/-- The nonce the transaction of a submission carries: the binding sends
`auth.Nonce.Uint64()`. -/
def Call.txNonce : Call → Option Nat
  | .claimRewards _ n _ => some (Uint64 n)
  | .claimCommissionRewards _ n _ => some (Uint64 n)
  | .delegate _ n _ => some (Uint64 n)
  | _ => none

/-- The transactions and the barrier polls: the calls the spec sequences. -/
def Call.isSequencing (c : Call) : Bool := c.isSubmission || c.isPoll

/-- The calls of a run that satisfy `p`, in order, each with its outcome. -/
def project (p : Call → Bool) (trace : List Step) : List (Call × Bool) :=
  (trace.filter fun s => p s.call).map fun s => (s.call, s.ok)

/-- The transactions a run attempted, in order, each with its outcome. -/
def submissions (trace : List Step) : List (Call × Bool) := project Call.isSubmission trace

/-- The claim transactions a run attempted, in order, each with its outcome. -/
def claims (trace : List Step) : List (Call × Bool) := project Call.isClaim trace

/-- The transactions and barrier polls of a run, in order, each with its outcome. -/
def sequencing (trace : List Step) : List (Call × Bool) := project Call.isSequencing trace

/-- Claims of one kind for the accounts `as`, with consecutive nonces from `n`. -/
def planFrom (call : Address → Int → Int → Call) : List Address → Int → Int → List Call
  | [], _, _ => []
  | a :: rest, n, value => call a n value :: planFrom call rest (n + 1) value

/-- The claims the spec prescribes for a session at nonce `n`: one
`claimRewards` per delegation in list order, then one `claimCommissionRewards`
per validator in list order, the `i`-th at nonce `n + i`. -/
def claimPlan (n value : Int) (D : List DelegationData) (V : List ValidatorData) : List Call :=
  planFrom .claimRewards (D.map (·.Account)) n value ++
    planFrom .claimCommissionRewards (V.map (·.Account)) (n + D.length) value

/-- The first `k` calls of `plan` succeeding and the next one, when there is
one, failing: what a fail-fast run over `plan` attempts when its `(k+1)`-th
submission is the first to fail (all of `plan`, succeeding, when `k` is its
length). -/
def attemptsUpTo (plan : List Call) (k : Nat) : List (Call × Bool) :=
  (plan.take k).map (fun c => (c, true)) ++ ((plan.drop k).take 1).map (fun c => (c, false))

/-- A predicate on calls that keeps every claim and drops the two discovery queries. -/
def KeepsClaims (p : Call → Bool) : Prop :=
  (∀ a n v, p (.claimRewards a n v) = true) ∧ (∀ a n v, p (.claimCommissionRewards a n v) = true) ∧
    p .getDelegations = false ∧ p .getValidatorsFor = false

/-- The claim transactions of a trace that were submitted successfully. -/
def successfulClaims (trace : List Step) : Nat :=
  (trace.filter fun s => s.call.isClaim && s.ok).length

/-- The transactions of a trace that were submitted successfully. -/
def successfulSubmissions (trace : List Step) : Nat :=
  (trace.filter fun s => s.call.isSubmission && s.ok).length

/-- Along `trace`, entered after `c` successful claims, every recorded session
nonce is `n0` plus the number of successful claims so far. -/
def NonceTracks (n0 : Int) : Nat → List Step → Prop
  | _, [] => True
  | c, s :: rest =>
    (∀ x, s.nonce = some x → x = n0 + ((c + successfulClaims [s] : Nat) : Int)) ∧
      NonceTracks n0 (c + successfulClaims [s]) rest

/-- The calls whose failure ends the run on the spot: `main` returns on their
error, or dereferences the nil they return (key, transactor). The other calls
are `ChainID`, `BlockNumber` and `BalanceAt`, whose error is dropped, and the two
queries of `prepareTransactOps` and the barrier's polls, whose error is only
printed. -/
def Call.isFatal : Call → Bool
  | .chainID => false
  | .balanceAt => false
  | .pendingNonceAt => false
  | .suggestGasPrice => false
  | .blockNumber => false
  | .pollPendingNonce _ => false
  | _ => true

/-- In `trace`, a failed fatal call has no call after it. -/
def FatalEnds : List Step → Prop
  | [] => True
  | s :: rest => (s.ok = false → s.call.isFatal = true → rest = []) ∧ FatalEnds rest

/-- No call of the list is a failed fatal call. -/
def Harmless (l : List Step) : Prop := ∀ s ∈ l, s.ok = true ∨ s.call.isFatal = false

/-- A run with a failed fatal call has not ended normally: it aborted or panicked. -/
def Halts (r : Run) : Prop :=
  ∀ s ∈ r.trace, s.ok = false → s.call.isFatal = true →
    r.outcome = .aborted ∨ r.outcome = .panicked

/-! ## Sample chains -/

/-- An account with two delegations and one validator position, pending nonce
5, every call succeeding, the chain's pending nonce reaching 8 on the fourth
poll, and 10.4 units on the account once the claims have settled. No sample
run below hands `NewFromFloat` a float beyond 2^53, so `newFromFloat` is not used. -/
def sampleWorld : World :=
  { hexToECDSA := true, dial := true, chainID := some 841, pendingNonceAt := (5, true),
    suggestGasPrice := some 1, newKeyedTransactor := true, blockNumber := true,
    newTaraxaDposClient := true,
    getDelegations := some [⟨11, some 5, some 7⟩, ⟨12, some 1, some 2⟩],
    getValidatorsFor := some [⟨13, some 1, some 1⟩],
    submit := fun _ => true,
    polls := fun i => (5 + i, true),
    balanceAt := (some 10400000000000000000, true),
    newFromFloat := fun f => f }

/-- The session `prepareTransactOps` builds on `sampleWorld`. -/
def sampleAuth : TransactOpts := { Nonce := 5, Value := 0, GasLimit := 300000, GasPrice := some 1 }

/-- The sample chain with the validator query failing. -/
def validatorsFailWorld : World := { sampleWorld with getValidatorsFor := none }

/-- The sample chain with the chain-ID query failing: the transactor cannot be
built without a chain ID. -/
def chainIDFailsWorld : World := { sampleWorld with chainID := none, newKeyedTransactor := false }

/-- The sample chain, on a fresh account, with the first pending-nonce query
failing and returning 0. -/
def nonceQueryFailsWorld : World :=
  { sampleWorld with pendingNonceAt := (0, false), polls := fun i => (i, true) }

/-- The sample chain with the balance read failing and returning zero. -/
def balanceFailsWorld : World := { sampleWorld with balanceAt := (some 0, false) }

/-- The sample chain with the second submission of the run rejected. -/
def secondClaimFailsWorld : World := { sampleWorld with submit := fun k => k != 1 }

/-- The sample chain with a pending nonce of `2^63 + 1` at session start. -/
def largeNonceWorld : World := { sampleWorld with pendingNonceAt := (2 ^ 63 + 1, true) }

/-- A fresh account (pending nonce 0) with nothing to claim, 10.4 units on it,
and every barrier poll failing, the client returning nonce 0 with the error. -/
def freshAccountWorld : World :=
  { sampleWorld with
    pendingNonceAt := (0, true)
    getDelegations := some []
    getValidatorsFor := some []
    polls := fun _ => (0, false) }

/-! ## Digit strings round-trip -/

theorem digitChar_isDigit (d : Nat) (h : d < 10) : (digitChar d).isDigit = true := by
  interval_cases d <;> decide

theorem digitChar_toNat (d : Nat) (h : d < 10) : (digitChar d).toNat - 48 = d := by
  interval_cases d <;> decide

theorem natDigitsRev_all_digit (fuel n : Nat) :
    ∀ c ∈ natDigitsRev fuel n, c.isDigit = true := by
  induction fuel generalizing n with
  | zero => simp [natDigitsRev]
  | succ fuel ih =>
    intro c hc
    simp only [natDigitsRev, List.mem_cons] at hc
    rcases hc with rfl | hc
    · exact digitChar_isDigit _ (Nat.mod_lt _ (by norm_num))
    · split at hc
      · simp at hc
      · exact ih _ c hc

theorem natString_all_digit (n : Nat) : ∀ c ∈ natString n, c.isDigit = true := by
  intro c hc
  exact natDigitsRev_all_digit _ _ c (by simpa [natString] using hc)

theorem natString_ne_nil (n : Nat) : natString n ≠ [] := by
  simp [natString, natDigitsRev]

theorem scanMantissa_digits (fuel : Nat) :
    ∀ (n : Nat) (rest : List Char) (acc count : Nat), n < fuel →
      scanMantissa ((natDigitsRev fuel n).reverse ++ rest) acc count =
        scanMantissa rest (acc * 10 ^ (natDigitsRev fuel n).length + n)
          (count + (natDigitsRev fuel n).length) := by
  induction fuel with
  | zero => intro n rest acc count h; omega
  | succ fuel ih =>
    intro n rest acc count h
    have hd := digitChar_isDigit (n % 10) (Nat.mod_lt _ (by norm_num))
    have hv := digitChar_toNat (n % 10) (Nat.mod_lt _ (by norm_num))
    by_cases h0 : n / 10 = 0
    · have hn : n % 10 = n := Nat.mod_eq_of_lt (by omega)
      rw [hn] at hd hv
      simp [natDigitsRev, h0, scanMantissa, hd, hv, hn]
    · have hlt : n / 10 < fuel := by omega
      simp only [natDigitsRev, h0, if_false, List.reverse_cons, List.append_assoc,
        List.singleton_append, List.length_cons]
      rw [ih (n / 10) _ acc count hlt]
      simp only [scanMantissa, hd, if_true, hv]
      congr 1
      · have := Nat.div_add_mod n 10
        rw [pow_succ]
        nlinarith [this]

theorem scanMantissa_natString (n : Nat) :
    scanMantissa (natString n) 0 0 = (n, (natString n).length, []) := by
  have h := scanMantissa_digits (n + 1) n [] 0 0 (Nat.lt_succ_self n)
  simp only [List.append_nil, Nat.zero_mul, Nat.zero_add] at h
  simp only [natString, h, scanMantissa, List.length_reverse]

theorem scanSign_natString (n : Nat) : scanSign (natString n) = (false, natString n) := by
  have hd := natString_all_digit n
  have hne := natString_ne_nil n
  cases hs : natString n with
  | nil => exact absurd hs hne
  | cons c r =>
    have hc : c.isDigit = true := hd c (by simp [hs])
    have h1 : c ≠ '+' := by rintro rfl; exact absurd hc (by decide)
    have h2 : c ≠ '-' := by rintro rfl; exact absurd hc (by decide)
    unfold scanSign
    split
    · rename_i heq; injection heq with heq _; exact absurd heq h1
    · rename_i heq; injection heq with heq _; exact absurd heq h2
    · rfl

theorem natString_length_pos (n : Nat) : (natString n).length ≠ 0 := by
  simpa [List.length_eq_zero] using natString_ne_nil n

/-- Reading back the text of a `big.Int` gives the same integer. -/
theorem SetString_intString (v : Int) : SetString (intString v) = (v, true) := by
  unfold intString
  by_cases hv : v < 0
  · simp only [hv, if_true]
    simp only [SetString, scanSign, scanMantissa_natString, natString_length_pos, if_false,
      if_true, List.isEmpty_nil, Prod.mk.injEq, and_true]
    omega
  · simp only [hv, if_false]
    simp only [SetString, scanSign_natString, scanMantissa_natString, natString_length_pos,
      if_false, List.isEmpty_nil, Prod.mk.injEq, and_true]
    simp
    omega

/-! ## The unit converter on whole amounts -/

theorem wrapInt64_of_lt (q : Int) (h0 : 0 ≤ q) (h1 : q < 2 ^ 63) : wrapInt64 q = q := by
  unfold wrapInt64
  norm_num at h1 ⊢
  omega

theorem Int64_of_lt (q : Int) (h0 : 0 ≤ q) (h1 : q < 2 ^ 63) : Int64 q = q := by
  have hq : ((q.natAbs % 2 ^ 64 : Nat) : Int) = q := by
    obtain ⟨n, rfl⟩ := Int.eq_ofNat_of_zero_le h0
    norm_num at h1 ⊢
    omega
  simp only [Int64, hq, not_lt.mpr h0, if_false]
  exact wrapInt64_of_lt q h0 h1


theorem Uint64_natCast (m : Nat) (h : m < 2 ^ 64) : Uint64 (m : Int) = m := by
  unfold Uint64
  simp only [Int.natAbs_ofNat]
  exact Nat.mod_eq_of_lt h

theorem tdiv_unit (raw : Int) (h : 0 ≤ raw) : Int.tdiv raw (10 ^ 18) = raw / 10 ^ 18 :=
  Int.tdiv_eq_ediv h (by norm_num)

theorem floor_of_quotient (raw : Int) (h0 : 0 ≤ raw) (h1 : raw / 10 ^ 18 < 2 ^ 63) :
    ToRoundedTara (.bigInt (some raw)) = .ok (raw / 10 ^ 18) ∧
      ToRoundedTara (.str (intString raw)) = .ok (raw / 10 ^ 18) := by
  have hq : Int64 (Int.tdiv raw (10 ^ 18)) = raw / 10 ^ 18 := by
    rw [tdiv_unit raw h0]
    exact Int64_of_lt _ (Int.ediv_nonneg h0 (by norm_num)) h1
  constructor
  · simp only [ToRoundedTara, IValue.value, hq]
  · simp only [ToRoundedTara, IValue.value, SetString_intString, hq]

theorem shortestDigits_spec (fuel : Nat) :
    ∀ (v e : Int), 0 ≤ e →
      e ≤ (shortestDigits fuel v e).exp ∧ (shortestDigits fuel v e).exp ≤ e + fuel ∧
        (shortestDigits fuel v e).value * 10 ^ ((shortestDigits fuel v e).exp - e).toNat = v := by
  induction fuel with
  | zero => intro v e _; simp [shortestDigits]
  | succ fuel ih =>
    intro v e he
    unfold shortestDigits
    split
    · rename_i hc
      obtain ⟨h1, h2, h3⟩ := ih (v / 10) (e + 1) (by omega)
      refine ⟨by omega, by push_cast; omega, ?_⟩
      have hexp : ((shortestDigits fuel (v / 10) (e + 1)).exp - e).toNat =
          ((shortestDigits fuel (v / 10) (e + 1)).exp - (e + 1)).toNat + 1 := by omega
      rw [hexp, pow_succ, ← mul_assoc, h3]
      have := hc.2
      omega
    · simp
      omega

theorem pow_ten_18 : ten.Pow 18 = .ok ⟨1, 18⟩ := by decide

theorem bitLength_le (fuel : Nat) : ∀ (n k : Nat), n < 2 ^ k → bitLength fuel n ≤ k := by
  induction fuel with
  | zero => intro n k _; exact Nat.zero_le _
  | succ fuel ih =>
    intro n k h
    unfold bitLength
    split
    · exact Nat.zero_le _
    · rename_i hn
      cases k with
      | zero => simp at h; exact absurd h hn
      | succ k =>
        have : n / 2 < 2 ^ k := by
          rw [pow_succ] at h
          omega
        have := ih (n / 2) k this
        omega

/-- Up to 2^53 in magnitude an `int64` converts to `float64` without rounding. -/
theorem float64_exact (v : Int) (h : v.natAbs ≤ 2 ^ 53) : float64 v = v := by
  rcases Nat.lt_or_ge v.natAbs (2 ^ 53) with hlt | hge
  · have hb : bitLength 64 v.natAbs - 53 = 0 := by
      have := bitLength_le 64 v.natAbs 53 hlt
      omega
    simp only [float64, hb, pow_zero, Nat.div_one, Nat.mod_one, Nat.mul_zero, Nat.mul_one]
    norm_num
    exact Int.sign_mul_abs v
  · have he : v.natAbs = 2 ^ 53 := le_antisymm h hge
    rcases Int.natAbs_eq v with hv | hv
    · rw [hv, he]
      decide
    · rw [hv, he]
      decide

/-- At scale 18, `ToWei` of an amount with a small non-negative exponent is its
coefficient with the zeros of the exponent and 18 more appended: no panic, and
the text read back is the text printed. -/
theorem ToWei_of_amount (digits : Int → Int) (iamount : IAmount) (d : Decimal)
    (h : iamount.amount digits = .ok d) (h0 : 0 ≤ d.exp) (h1 : d.exp ≤ 20) :
    ToWei digits iamount 18 = .ok (d.value * 10 ^ ((d.exp - 0).toNat + 18)) := by
  have hr : ¬ (d.exp + 18 > maxInt32 ∨ d.exp + 18 < minInt32) := by
    simp only [maxInt32, minInt32]
    norm_num
    omega
  have hge : d.exp + 18 ≥ 0 := by omega
  have hne : ¬ d.exp + 18 = 0 := by omega
  have hgt : ¬ (0 > d.exp + 18) := by omega
  have hpow : (d.exp + 18 - 0).toNat = (d.exp - 0).toNat + 18 := by omega
  simp only [ToWei, h, pow_ten_18, Decimal.Mul, hr, if_false, Decimal.String, hge, if_true,
    Decimal.rescale, hne, hgt, SetString_intString, hpow, mul_one]

/-- On every `int64`, `ToWei` at scale 18 returns a value: the integer
`NewFromFloat` makes of `float64(v)`, times 10^18. -/
theorem ToWei_int64_value (digits : Int → Int) (v : Int) :
    ToWei digits (.int64 v) 18 =
      .ok ((if (float64 v).natAbs ≤ 2 ^ 53 then float64 v else digits (float64 v)) * 10 ^ 18) := by
  by_cases hf : (float64 v).natAbs ≤ 2 ^ 53
  · obtain ⟨h1, h2, h3⟩ := shortestDigits_spec 16 (float64 v) 0 le_rfl
    rw [ToWei_of_amount digits (.int64 v) (shortestDigits 16 (float64 v) 0)
      (by simp only [IAmount.amount, NewFromFloat, hf, if_true]) h1 (by omega), if_pos hf,
      pow_add, ← mul_assoc, h3]
  · obtain ⟨h1, h2, h3⟩ := shortestDigits_spec 20 (digits (float64 v)) 0 le_rfl
    rw [ToWei_of_amount digits (.int64 v) (shortestDigits 20 (digits (float64 v)) 0)
      (by simp only [IAmount.amount, NewFromFloat, hf, if_false]) h1 (by omega), if_neg hf,
      pow_add, ← mul_assoc, h3]

/-- On an `int64` that `float64` holds exactly, `ToWei` at scale 18 multiplies by 10^18. -/
theorem ToWei_int64 (digits : Int → Int) (v : Int) (h : v.natAbs ≤ 2 ^ 53) :
    ToWei digits (.int64 v) 18 = .ok (v * 10 ^ 18) := by
  rw [ToWei_int64_value, float64_exact v h, if_pos h]

theorem isDigit_ne (c : Char) (h : c.isDigit = true) : c ≠ 'e' ∧ c ≠ 'E' ∧ c ≠ '.' := by
  refine ⟨?_, ?_, ?_⟩ <;> rintro rfl <;> exact absurd h (by decide)

theorem intString_chars (v : Int) (c : Char) (hc : c ∈ intString v) :
    c ≠ 'e' ∧ c ≠ 'E' ∧ c ≠ '.' := by
  unfold intString at hc
  split at hc
  · rcases List.mem_cons.mp hc with rfl | hc
    · decide
    · exact isDigit_ne c (natString_all_digit _ c hc)
  · exact isDigit_ne c (natString_all_digit _ c hc)

/-- The text of a `big.Int` parses to the decimal with that value and exponent 0. -/
theorem NewFromString_intString (v : Int) : NewFromString (intString v) = some ⟨v, 0⟩ := by
  have he : (intString v).findIdx (fun c => decide (c = 'e' ∨ c = 'E')) = (intString v).length :=
    List.findIdx_eq_length_of_false (by
      intro c hc
      have := intString_chars v c hc
      simp [this.1, this.2.1])
  have hp : (intString v).findIdx (fun c => decide (c = '.')) = (intString v).length :=
    List.findIdx_eq_length_of_false (by
      intro c hc
      have := intString_chars v c hc
      simp [this.2.2])
  have hcount : (intString v).count '.' = 0 :=
    List.count_eq_zero.mpr (fun hm => (intString_chars v _ hm).2.2 rfl)
  have hc1 : ¬ (0 > 1) := by decide
  simp only [NewFromString, he, hp, hcount, lt_irrefl, if_false, parseInteger,
    SetString_intString, if_true, hc1]
  simp [minInt32, maxInt32]

theorem Div_unit_ok (num : Decimal) (h : num.exp = 0) : ∃ d, num.Div ⟨1, 18⟩ = .ok d := by
  simp only [Decimal.Div, Decimal.DivRound, Decimal.QuoRem, Decimal.DivisionPrecision, h, maxInt32,
    minInt32]
  norm_num
  split_ifs <;> exact ⟨_, rfl⟩

/-- Printing an amount never panics: `ToDecimal` at scale 18 returns a decimal for
every `*big.Int`, nil included. -/
theorem ToDecimal_ok (v : Option Int) : ∃ d, ToDecimal (.bigInt v) 18 = .ok d := by
  simp only [ToDecimal, pow_ten_18, IValue.value]
  apply Div_unit_ok
  cases v with
  | none => decide
  | some x => simp [bigString, NewFromString_intString]

/-! ## The claim loops -/

theorem claimLoop_cons (w : World) (call : Address → Int → Int → Call) (p : Position)
    (rest : List Position) (k : Nat) (auth : TransactOpts) :
    claimLoop w call (p :: rest) k auth =
      if w.submit k then
        { claimLoop w call rest (k + 1) { auth with Nonce := auth.Nonce + 1 } with
          steps := ⟨call p.Account auth.Nonce auth.Value, true, some (auth.Nonce + 1)⟩ ::
            (claimLoop w call rest (k + 1) { auth with Nonce := auth.Nonce + 1 }).steps }
      else
        ⟨[⟨call p.Account auth.Nonce auth.Value, false, some auth.Nonce⟩], auth, k + 1,
          some .aborted⟩ := by
  obtain ⟨d1, h1⟩ := ToDecimal_ok p.Stake
  obtain ⟨d2, h2⟩ := ToDecimal_ok p.Reward
  simp only [claimLoop, h1, h2]

theorem attemptsUpTo_nil (k : Nat) : attemptsUpTo [] k = [] := by
  simp [attemptsUpTo]

theorem attemptsUpTo_cons_zero (c : Call) (plan : List Call) :
    attemptsUpTo (c :: plan) 0 = [(c, false)] := by
  simp [attemptsUpTo]

theorem attemptsUpTo_cons_succ (c : Call) (plan : List Call) (k : Nat) :
    attemptsUpTo (c :: plan) (k + 1) = (c, true) :: attemptsUpTo plan k := by
  simp [attemptsUpTo]

theorem attemptsUpTo_length (plan : List Call) :
    attemptsUpTo plan plan.length = plan.map (fun c => (c, true)) := by
  simp [attemptsUpTo]

theorem attemptsUpTo_append_left (p1 p2 : List Call) (k : Nat) (h : k < p1.length) :
    attemptsUpTo (p1 ++ p2) k = attemptsUpTo p1 k := by
  induction p1 generalizing k with
  | nil => simp at h
  | cons c p1 ih =>
    cases k with
    | zero => simp [attemptsUpTo]
    | succ k =>
      simp only [List.cons_append, attemptsUpTo_cons_succ]
      rw [ih k (by simpa using h)]

theorem attemptsUpTo_append_right (p1 p2 : List Call) (k : Nat) :
    attemptsUpTo (p1 ++ p2) (p1.length + k) = p1.map (fun c => (c, true)) ++ attemptsUpTo p2 k := by
  induction p1 with
  | nil => simp
  | cons c p1 ih =>
    have : (c :: p1).length + k = (p1.length + k) + 1 := by simp; omega
    rw [this, List.cons_append, attemptsUpTo_cons_succ, ih]
    simp

/-- A claim loop whose first `j` submissions succeed and whose next one, if the
list is longer, fails: it attempts exactly those, in list order, with
consecutive nonces; it runs through with the nonce advanced by the list's
length when all succeed, and ends the run otherwise. -/
theorem claimLoop_attempts (w : World) (call : Address → Int → Int → Call) :
    ∀ (ps : List Position) (k : Nat) (auth : TransactOpts) (j : Nat), j ≤ ps.length →
      (∀ i, i < j → w.submit (k + i) = true) → (j < ps.length → w.submit (k + j) = false) →
      (claimLoop w call ps k auth).steps.map (fun s => (s.call, s.ok)) =
          attemptsUpTo (planFrom call (ps.map (·.Account)) auth.Nonce auth.Value) j ∧
        (j = ps.length →
          (claimLoop w call ps k auth).stop = none ∧
          (claimLoop w call ps k auth).auth = { auth with Nonce := auth.Nonce + ps.length } ∧
          (claimLoop w call ps k auth).attempts = k + ps.length) ∧
        (j < ps.length → (claimLoop w call ps k auth).stop = some .aborted) := by
  intro ps
  induction ps with
  | nil =>
    intro k auth j hj _ _
    have hj0 : j = 0 := by simpa using hj
    subst hj0
    simp [claimLoop, planFrom, attemptsUpTo_nil]
  | cons p rest ih =>
    intro k auth j hj hok hfail
    rw [claimLoop_cons]
    cases j with
    | zero =>
      have hf : w.submit k = false := by simpa using hfail (by simp)
      simp [hf, planFrom, attemptsUpTo_cons_zero]
    | succ j =>
      have hs : w.submit k = true := by simpa using hok 0 (by omega)
      have hj1 : j ≤ rest.length := by simpa using hj
      obtain ⟨h1, h2, h3⟩ := ih (k + 1) { auth with Nonce := auth.Nonce + 1 } j hj1
        (fun i hi => by have := hok (i + 1) (by omega); rwa [show k + 1 + i = k + (i + 1) by omega])
        (fun hlt => by
          have := hfail (by simpa using hlt)
          rwa [show k + 1 + j = k + (j + 1) by omega])
      simp only [hs, if_true, List.map_cons, planFrom, attemptsUpTo_cons_succ, h1, List.length_cons,
        true_and]
      refine ⟨fun hje => ?_, fun hlt => ?_⟩
      · obtain ⟨a, b, c⟩ := h2 (by omega)
        refine ⟨a, ?_, by omega⟩
        rw [b]
        simp only [Nat.cast_add, Nat.cast_one, TransactOpts.mk.injEq, and_true]
        omega
      · exact h3 (by omega)

theorem claimLoop_calls (w : World) (call : Address → Int → Int → Call) :
    ∀ (ps : List Position) (k : Nat) (auth : TransactOpts),
      ∀ s ∈ (claimLoop w call ps k auth).steps, ∃ a n v, s.call = call a n v := by
  intro ps
  induction ps with
  | nil => intro k auth s hs; simp [claimLoop] at hs
  | cons p rest ih =>
    intro k auth s hs
    rw [claimLoop_cons] at hs
    split at hs
    · rcases List.mem_cons.mp hs with rfl | hs
      · exact ⟨_, _, _, rfl⟩
      · exact ih _ _ s hs
    · rcases List.mem_cons.mp hs with rfl | hs
      · exact ⟨_, _, _, rfl⟩
      · simp at hs

/-! ## Projections of a trace -/

theorem project_append (p : Call → Bool) (a b : List Step) :
    project p (a ++ b) = project p a ++ project p b := by
  simp [project, List.filter_append]

theorem project_cons_false (p : Call → Bool) (s : Step) (l : List Step) (h : p s.call = false) :
    project p (s :: l) = project p l := by
  simp [project, List.filter_cons, h]


theorem project_all (p : Call → Bool) (l : List Step) (h : ∀ s ∈ l, p s.call = true) :
    project p l = l.map (fun s => (s.call, s.ok)) := by
  unfold project
  rw [List.filter_eq_self.mpr h]

theorem project_none (p : Call → Bool) (l : List Step) (h : ∀ s ∈ l, p s.call = false) :
    project p l = [] := by
  unfold project
  rw [List.filter_eq_nil_iff.mpr (fun s hs => by simp [h s hs])]
  rfl

theorem keepsClaims_isSubmission : KeepsClaims Call.isSubmission :=
  ⟨fun _ _ _ => rfl, fun _ _ _ => rfl, rfl, rfl⟩

theorem keepsClaims_isClaim : KeepsClaims Call.isClaim :=
  ⟨fun _ _ _ => rfl, fun _ _ _ => rfl, rfl, rfl⟩

theorem keepsClaims_isSequencing : KeepsClaims Call.isSequencing :=
  ⟨fun _ _ _ => rfl, fun _ _ _ => rfl, rfl, rfl⟩

theorem project_claimLoop (p : Call → Bool) (w : World) (call : Address → Int → Int → Call)
    (hp : ∀ a n v, p (call a n v) = true) (ps : List Position) (k : Nat) (auth : TransactOpts) :
    project p (claimLoop w call ps k auth).steps =
      (claimLoop w call ps k auth).steps.map (fun s => (s.call, s.ok)) := by
  apply project_all
  intro s hs
  obtain ⟨a, n, v, h⟩ := claimLoop_calls w call ps k auth s hs
  rw [h, hp]

theorem planFrom_length (call : Address → Int → Int → Call) (l : List Address) (n value : Int) :
    (planFrom call l n value).length = l.length := by
  induction l generalizing n with
  | nil => rfl
  | cons a rest ih => simp [planFrom, ih]

theorem planFrom_txNonce (call : Address → Int → Int → Call)
    (hc : ∀ a n v, (call a n v).txNonce = some (Uint64 n)) (l : List Address) (value : Int) :
    ∀ (m : Nat), m + l.length ≤ 2 ^ 64 →
      (planFrom call l (m : Int) value).map Call.txNonce =
        (List.range l.length).map (fun (i : Nat) => some (m + i)) := by
  induction l with
  | nil => intro m _; rfl
  | cons a rest ih =>
    intro m h
    simp only [List.length_cons] at h
    have hcast : ((m : Int) + 1) = ((m + 1 : Nat) : Int) := by push_cast; rfl
    simp only [planFrom, List.map_cons, hc, hcast, ih (m + 1) (by omega), List.length_cons,
      List.range_succ_eq_map, List.map_map, Uint64_natCast m (by omega), Nat.add_zero,
      List.cons.injEq, true_and]
    apply List.map_congr_left
    intro i _
    simp only [Function.comp, Nat.succ_eq_add_one]
    congr 1
    omega

theorem claimPlan_length (n value : Int) (D : List DelegationData) (V : List ValidatorData) :
    (claimPlan n value D V).length = D.length + V.length := by
  simp [claimPlan, planFrom_length]

/-- The `i`-th claim of the plan for a session at nonce `n` is sent with nonce
`n + i`, as long as these stay within `uint64`. -/
theorem claimPlan_txNonce (n : Nat) (value : Int) (D : List DelegationData)
    (V : List ValidatorData) (h : n + D.length + V.length ≤ 2 ^ 64) :
    (claimPlan (n : Int) value D V).map Call.txNonce =
      (List.range (D.length + V.length)).map (fun (i : Nat) => some (n + i)) := by
  have hcast : ((n : Int) + (D.length : Int)) = ((n + D.length : Nat) : Int) := by push_cast; rfl
  simp only [claimPlan, List.map_append, hcast]
  rw [planFrom_txNonce Call.claimRewards (fun _ _ _ => rfl) _ _ n (by simp; omega),
    planFrom_txNonce Call.claimCommissionRewards (fun _ _ _ => rfl) _ _ (n + D.length)
      (by simp; omega)]
  simp only [List.length_map, List.range_add, List.map_append, List.map_map]
  congr 1
  apply List.map_congr_left
  intro i _
  simp only [Function.comp]
  congr 1
  omega

theorem attemptsUpTo_getLast (plan : List Call) (k : Nat) (h : k < plan.length) :
    ((attemptsUpTo plan k).getLast?).map (·.2) = some false := by
  have hd : ((plan.drop k).take 1) ≠ [] := by
    cases hdk : plan.drop k with
    | nil =>
      have := congrArg List.length hdk
      simp at this
      omega
    | cons c r => simp
  cases hx : (plan.drop k).take 1 with
  | nil => exact absurd hx hd
  | cons c r =>
    have hr : r = [] := by
      have := congrArg List.length hx
      simp at this
      have hl : r.length = 0 := by omega
      exact List.length_eq_zero.mp hl
    subst hr
    simp [attemptsUpTo, hx]

theorem getLast_ok_of_map (l : List Step) (h : ((l.map (fun s => (s.call, s.ok))).getLast?).map (·.2) = some false) :
    (l.getLast?).map (·.ok) = some false := by
  rw [List.getLast?_map] at h
  cases hl : l.getLast? with
  | none => simp [hl] at h
  | some s => simpa [hl] using h

/-! ## The orchestrator -/

theorem map_position_delegations (D : List DelegationData) :
    (D.map DelegationData.position).map (·.Account) = D.map (·.Account) := by
  simp [List.map_map, Function.comp, DelegationData.position]

theorem map_position_validators (V : List ValidatorData) :
    (V.map ValidatorData.position).map (·.Account) = V.map (·.Account) := by
  simp [List.map_map, Function.comp, ValidatorData.position]

theorem claimLoop_all_ok (w : World) (call : Address → Int → Int → Call) (ps : List Position)
    (k : Nat) (auth : TransactOpts) (hok : ∀ i, i < ps.length → w.submit (k + i) = true) :
    (claimLoop w call ps k auth).stop = none ∧
      (claimLoop w call ps k auth).auth = { auth with Nonce := auth.Nonce + ps.length } ∧
      (claimLoop w call ps k auth).attempts = k + ps.length ∧
      (claimLoop w call ps k auth).steps.map (fun s => (s.call, s.ok)) =
        (planFrom call (ps.map (·.Account)) auth.Nonce auth.Value).map (fun c => (c, true)) := by
  obtain ⟨h1, h2, _⟩ := claimLoop_attempts w call ps k auth ps.length le_rfl hok
    (fun h => absurd h (lt_irrefl _))
  obtain ⟨a, b, c⟩ := h2 rfl
  refine ⟨a, b, c, ?_⟩
  rw [h1]
  have hl : ps.length = (planFrom call (ps.map (·.Account)) auth.Nonce auth.Value).length := by
    simp [planFrom_length]
  rw [hl, attemptsUpTo_length]

theorem claimLoop_fails (w : World) (call : Address → Int → Int → Call) (ps : List Position)
    (k : Nat) (auth : TransactOpts) (j : Nat) (hj : j < ps.length)
    (hok : ∀ i, i < j → w.submit (k + i) = true) (hfail : w.submit (k + j) = false) :
    (claimLoop w call ps k auth).stop = some .aborted ∧
      (claimLoop w call ps k auth).steps.map (fun s => (s.call, s.ok)) =
        attemptsUpTo (planFrom call (ps.map (·.Account)) auth.Nonce auth.Value) j := by
  obtain ⟨h1, _, h3⟩ := claimLoop_attempts w call ps k auth j (le_of_lt hj) hok (fun _ => hfail)
  exact ⟨h3 hj, h1⟩

theorem after_trace (r : Run) (pre : List Step) : (r.after pre).trace = pre ++ r.trace := rfl

theorem after_outcome (r : Run) (pre : List Step) : (r.after pre).outcome = r.outcome := rfl

theorem after_after (r : Run) (a b : List Step) : (r.after a).after b = r.after (b ++ a) := by
  simp [Run.after]

/-- Every validator claim succeeding, `claimValidators` reaches the barrier with
the nonce advanced by the number of validators. -/
theorem claimValidators_all_ok (w : World) (fuel : Nat) (auth : TransactOpts) (k : Nat)
    (V : List ValidatorData) (hV : w.getValidatorsFor = some V)
    (hok : ∀ i, i < V.length → w.submit (k + i) = true) :
    ∃ pre, claimValidators w fuel auth k =
        (settleAndDelegate w fuel { auth with Nonce := auth.Nonce + V.length }
          (k + V.length)).after pre ∧
      ∀ p, KeepsClaims p → project p pre =
        (planFrom .claimCommissionRewards (V.map (·.Account)) auth.Nonce auth.Value).map
          (fun c => (c, true)) := by
  obtain ⟨h1, h2, h3, h4⟩ := claimLoop_all_ok w .claimCommissionRewards
    (V.map ValidatorData.position) k auth (by simpa using hok)
  refine ⟨⟨.getValidatorsFor, true, some auth.Nonce⟩ ::
    (claimLoop w .claimCommissionRewards (V.map ValidatorData.position) k auth).steps, ?_, ?_⟩
  · simp only [claimValidators, hV, h1, h2, h3, List.length_map]
  · intro p hp
    rw [project_cons_false p _ _ hp.2.2.2, project_claimLoop p w _ hp.2.1, h4,
      map_position_validators]

theorem claimValidators_fails (w : World) (fuel : Nat) (auth : TransactOpts) (k : Nat)
    (V : List ValidatorData) (hV : w.getValidatorsFor = some V) (j : Nat) (hj : j < V.length)
    (hok : ∀ i, i < j → w.submit (k + i) = true) (hfail : w.submit (k + j) = false) :
    (claimValidators w fuel auth k).outcome = .aborted ∧
      (∀ p, KeepsClaims p → project p (claimValidators w fuel auth k).trace =
        attemptsUpTo (planFrom .claimCommissionRewards (V.map (·.Account)) auth.Nonce auth.Value) j) ∧
      ((claimValidators w fuel auth k).trace.getLast?).map (·.ok) = some false := by
  obtain ⟨h1, h2⟩ := claimLoop_fails w .claimCommissionRewards
    (V.map ValidatorData.position) k auth j (by simpa using hj) hok hfail
  rw [map_position_validators] at h2
  have htr : (claimValidators w fuel auth k).trace = ⟨.getValidatorsFor, true, some auth.Nonce⟩ ::
      (claimLoop w .claimCommissionRewards (V.map ValidatorData.position) k auth).steps := by
    simp only [claimValidators, hV, h1]
  refine ⟨by simp only [claimValidators, hV, h1], ?_, ?_⟩
  · intro p hp
    rw [htr, project_cons_false p _ _ hp.2.2.2, project_claimLoop p w _ hp.2.1, h2]
  · have hlast := attemptsUpTo_getLast _ j
      (by rw [planFrom_length]; simpa using hj :
        j < (planFrom .claimCommissionRewards (V.map (·.Account)) auth.Nonce auth.Value).length)
    rw [← h2] at hlast
    have hl := getLast_ok_of_map _ hlast
    rw [htr]
    cases hs : (claimLoop w .claimCommissionRewards (V.map ValidatorData.position) k auth).steps with
    | nil => simp [hs] at hl
    | cons s r =>
      rw [hs] at hl
      simpa [List.getLast?_cons_cons] using hl

/-- Every claim succeeding, the workflow reaches the barrier having attempted
exactly the plan, with the nonce advanced by the number of positions. -/
theorem workflow_all_ok (w : World) (fuel : Nat) (auth : TransactOpts)
    (D : List DelegationData) (V : List ValidatorData)
    (hD : w.getDelegations = some D) (hV : w.getValidatorsFor = some V)
    (hok : ∀ i, i < D.length + V.length → w.submit i = true) :
    ∃ pre, workflow w fuel auth =
        (settleAndDelegate w fuel { auth with Nonce := auth.Nonce + (D.length + V.length : Nat) }
          (D.length + V.length)).after pre ∧
      ∀ p, KeepsClaims p → project p pre =
        (claimPlan auth.Nonce auth.Value D V).map (fun c => (c, true)) := by
  obtain ⟨h1, h2, h3, h4⟩ := claimLoop_all_ok w .claimRewards
    (D.map DelegationData.position) 0 auth
    (by intro i hi; rw [Nat.zero_add]; exact hok i (by simp at hi; omega))
  simp only [List.length_map, Nat.zero_add] at h2 h3
  obtain ⟨pre2, e2, q2⟩ := claimValidators_all_ok w fuel
    { auth with Nonce := auth.Nonce + D.length } D.length V hV
    (fun i hi => hok (D.length + i) (by omega))
  refine ⟨(⟨.getDelegations, true, some auth.Nonce⟩ ::
    (claimLoop w .claimRewards (D.map DelegationData.position) 0 auth).steps) ++ pre2, ?_, ?_⟩
  · simp only [workflow, hD, h1, h2, h3, e2, after_after]
    simp only [Nat.cast_add, add_assoc]
  · intro p hp
    rw [project_append, project_cons_false p _ _ hp.2.2.1, project_claimLoop p w _ hp.1, h4,
      q2 p hp, map_position_delegations]
    simp [claimPlan]

theorem workflow_fails (w : World) (fuel : Nat) (auth : TransactOpts)
    (D : List DelegationData) (V : List ValidatorData)
    (hD : w.getDelegations = some D) (hV : w.getValidatorsFor = some V)
    (k : Nat) (hk : k < D.length + V.length)
    (hok : ∀ i, i < k → w.submit i = true) (hfail : w.submit k = false) :
    (workflow w fuel auth).outcome = .aborted ∧
      (∀ p, KeepsClaims p → project p (workflow w fuel auth).trace =
        attemptsUpTo (claimPlan auth.Nonce auth.Value D V) k) ∧
      ((workflow w fuel auth).trace.getLast?).map (·.ok) = some false := by
  by_cases hkd : k < D.length
  · obtain ⟨h1, h2⟩ := claimLoop_fails w .claimRewards (D.map DelegationData.position) 0 auth k
      (by simpa using hkd) (by intro i hi; rw [Nat.zero_add]; exact hok i hi)
      (by rw [Nat.zero_add]; exact hfail)
    rw [map_position_delegations] at h2
    have htr : (workflow w fuel auth).trace = ⟨.getDelegations, true, some auth.Nonce⟩ ::
        (claimLoop w .claimRewards (D.map DelegationData.position) 0 auth).steps := by
      simp only [workflow, hD, h1]
    refine ⟨by simp only [workflow, hD, h1], ?_, ?_⟩
    · intro p hp
      rw [htr, project_cons_false p _ _ hp.2.2.1, project_claimLoop p w _ hp.1, h2, claimPlan,
        attemptsUpTo_append_left _ _ _ (by rw [planFrom_length]; simpa using hkd)]
    · have hlast := attemptsUpTo_getLast _ k
        (by rw [planFrom_length]; simpa using hkd :
          k < (planFrom .claimRewards (D.map (·.Account)) auth.Nonce auth.Value).length)
      rw [← h2] at hlast
      have hl := getLast_ok_of_map _ hlast
      rw [htr]
      cases hs : (claimLoop w .claimRewards (D.map DelegationData.position) 0 auth).steps with
      | nil => simp [hs] at hl
      | cons s r =>
        rw [hs] at hl
        simpa [List.getLast?_cons_cons] using hl
  · obtain ⟨h1, h2, h3, h4⟩ := claimLoop_all_ok w .claimRewards
      (D.map DelegationData.position) 0 auth
      (by intro i hi; rw [Nat.zero_add]; exact hok i (by simp at hi; omega))
    simp only [List.length_map, Nat.zero_add] at h2 h3
    rw [map_position_delegations] at h4
    obtain ⟨o2, q2, l2⟩ := claimValidators_fails w fuel
      { auth with Nonce := auth.Nonce + D.length } D.length V hV (k - D.length) (by omega)
      (fun i hi => hok (D.length + i) (by omega))
      (by rw [show D.length + (k - D.length) = k by omega]; exact hfail)
    have hw : workflow w fuel auth =
        (claimValidators w fuel { auth with Nonce := auth.Nonce + D.length } D.length).after
          (⟨.getDelegations, true, some auth.Nonce⟩ ::
            (claimLoop w .claimRewards (D.map DelegationData.position) 0 auth).steps) := by
      simp only [workflow, hD, h1, h2, h3]
    refine ⟨by rw [hw, after_outcome, o2], ?_, ?_⟩
    · intro p hp
      rw [hw, after_trace, project_append, project_cons_false p _ _ hp.2.2.1,
        project_claimLoop p w _ hp.1, h4, q2 p hp, claimPlan]
      have hlen : (planFrom .claimRewards (D.map (·.Account)) auth.Nonce auth.Value).length =
          D.length := by rw [planFrom_length]; simp
      have := attemptsUpTo_append_right
        (planFrom .claimRewards (D.map (·.Account)) auth.Nonce auth.Value)
        (planFrom .claimCommissionRewards (V.map (·.Account)) (auth.Nonce + D.length) auth.Value)
        (k - D.length)
      rw [hlen, show D.length + (k - D.length) = k by omega] at this
      rw [this]
    · rw [hw, after_trace, List.getLast?_append]
      cases hg : (claimValidators w fuel { auth with Nonce := auth.Nonce + D.length }
          D.length).trace.getLast? with
      | none => simp [hg] at l2
      | some s => simpa [hg] using l2

theorem delegationStep_trace (w : World) (auth : TransactOpts) (k : Nat) :
    (delegationStep w auth k).trace = [⟨.balanceAt, w.balanceAt.2, some auth.Nonce⟩] ∨
      ∃ value, (delegationStep w auth k).trace =
          [⟨.balanceAt, w.balanceAt.2, some auth.Nonce⟩,
            ⟨.delegate delegateTo auth.Nonce value, w.submit k, some auth.Nonce⟩] ∧
        (delegationStep w auth k).outcome = if w.submit k then .finished else .aborted := by
  cases h1 : ToDecimal (IValue.bigInt w.balanceAt.1) 18 with
  | error f => exact Or.inl (by simp only [delegationStep, h1])
  | ok d =>
    cases h2 : ToRoundedTara (IValue.bigInt w.balanceAt.1) with
    | error f => exact Or.inl (by simp only [delegationStep, h1, h2])
    | ok whole =>
      by_cases hw : whole > 1
      · cases h3 : ToWei w.newFromFloat (IAmount.int64 whole) 18 with
        | error f => exact Or.inl (by simp only [delegationStep, h1, h2, hw, if_true, h3])
        | ok value =>
          exact Or.inr ⟨value, by simp only [delegationStep, h1, h2, hw, if_true, h3],
            by simp only [delegationStep, h1, h2, hw, if_true, h3]⟩
      · exact Or.inl (by simp only [delegationStep, h1, h2, hw, if_false])

/-- On every balance that is not nil, the delegation step submits a delegate
exactly when `ToRoundedTara` gives more than one whole unit: no balance stops
the step short of the submission. -/
theorem delegationStep_submits (w : World) (auth : TransactOpts) (k : Nat) (b : Int)
    (hw : w.balanceAt.1 = some b) :
    delegationStep w auth k =
      if Int64 (Int.tdiv b (10 ^ 18)) > 1 then
        ⟨[⟨.balanceAt, w.balanceAt.2, some auth.Nonce⟩,
          ⟨.delegate delegateTo auth.Nonce
            ((if (float64 (Int64 (Int.tdiv b (10 ^ 18)))).natAbs ≤ 2 ^ 53
                then float64 (Int64 (Int.tdiv b (10 ^ 18)))
                else w.newFromFloat (float64 (Int64 (Int.tdiv b (10 ^ 18))))) * 10 ^ 18),
            w.submit k, some auth.Nonce⟩],
          if w.submit k then .finished else .aborted⟩
      else ⟨[⟨.balanceAt, w.balanceAt.2, some auth.Nonce⟩], .finished⟩ := by
  obtain ⟨d, hd⟩ := ToDecimal_ok (some b)
  by_cases h : Int64 (Int.tdiv b (10 ^ 18)) > 1
  · simp only [delegationStep, hw, hd, ToRoundedTara, IValue.value, h, if_true,
      ToWei_int64_value]
  · simp only [delegationStep, hw, hd, ToRoundedTara, IValue.value, h, if_false]

theorem settleAndDelegate_trace (w : World) (fuel : Nat) (auth : TransactOpts) (k : Nat) :
    ∃ seen, (settleAndDelegate w fuel auth k).trace = pollSteps (Uint64 auth.Nonce) auth seen ∨
      (settleAndDelegate w fuel auth k).trace =
        pollSteps (Uint64 auth.Nonce) auth seen ++ (delegationStep w auth k).trace := by
  refine ⟨(waitForAllConfirmed w.polls (Uint64 auth.Nonce) fuel 0).1, ?_⟩
  simp only [settleAndDelegate]
  by_cases hb : (waitForAllConfirmed w.polls (Uint64 auth.Nonce) fuel 0).2 = true
  · rw [if_pos hb]
    exact Or.inr rfl
  · rw [if_neg hb]
    exact Or.inl rfl

theorem settleAndDelegate_no_claims (w : World) (fuel : Nat) (auth : TransactOpts) (k : Nat) :
    ∀ s ∈ (settleAndDelegate w fuel auth k).trace, s.call.isClaim = false := by
  intro s hs
  obtain ⟨seen, h | h⟩ := settleAndDelegate_trace w fuel auth k
  · rw [h] at hs
    simp only [pollSteps, List.mem_map] at hs
    obtain ⟨_, _, rfl⟩ := hs
    rfl
  · rw [h, List.mem_append] at hs
    rcases hs with hs | hs
    · simp only [pollSteps, List.mem_map] at hs
      obtain ⟨_, _, rfl⟩ := hs
      rfl
    · rcases delegationStep_trace w auth k with h2 | ⟨v, h2, _⟩ <;> rw [h2] at hs <;>
        simp at hs <;> rcases hs with rfl | rfl <;> rfl

/-! ## The orchestrator on a given session -/

/-- Lines 50-100 of `main` run with any session `auth` on delegations `D` and
validators `V`: the claims attempted are the plan for `auth.Nonce`, in order, up
to and including the first that fails; all succeeding, exactly the plan is
submitted; on a first failure the run aborts there and no claim or delegate
follows. -/
theorem workflow_claim_sequence (w : World) (fuel : Nat) (auth : TransactOpts)
    (D : List DelegationData) (V : List ValidatorData) (k : Nat)
    (hD : w.getDelegations = some D) (hV : w.getValidatorsFor = some V)
    (hk : k ≤ D.length + V.length)
    (hok : ∀ i, i < k → w.submit i = true)
    (hfail : k < D.length + V.length → w.submit k = false) :
    claims (workflow w fuel auth).trace = attemptsUpTo (claimPlan auth.Nonce auth.Value D V) k ∧
      (k = D.length + V.length →
        claims (workflow w fuel auth).trace =
          (claimPlan auth.Nonce auth.Value D V).map (fun c => (c, true))) ∧
      (k < D.length + V.length →
        submissions (workflow w fuel auth).trace =
            attemptsUpTo (claimPlan auth.Nonce auth.Value D V) k ∧
          (workflow w fuel auth).outcome = .aborted ∧
          ((workflow w fuel auth).trace.getLast?).map (·.ok) = some false) := by
  have hall : k = D.length + V.length →
      claims (workflow w fuel auth).trace =
        (claimPlan auth.Nonce auth.Value D V).map (fun c => (c, true)) := by
    intro hke
    obtain ⟨pre, e, q⟩ := workflow_all_ok w fuel auth D V hD hV (fun i hi => hok i (by omega))
    rw [e, after_trace, claims, project_append, q _ keepsClaims_isClaim,
      project_none _ _ (settleAndDelegate_no_claims w fuel _ _), List.append_nil]
  refine ⟨?_, hall, ?_⟩
  · rcases Nat.lt_or_ge k (D.length + V.length) with hlt | hge
    · exact (workflow_fails w fuel auth D V hD hV k hlt hok (hfail hlt)).2.1 _ keepsClaims_isClaim
    · have hke : k = D.length + V.length := le_antisymm hk hge
      rw [hall hke, hke, ← claimPlan_length auth.Nonce auth.Value D V, attemptsUpTo_length]
  · intro hlt
    obtain ⟨o, q, l⟩ := workflow_fails w fuel auth D V hD hV k hlt hok (hfail hlt)
    exact ⟨q _ keepsClaims_isSubmission, o, l⟩

/-! ## C3: whole units -/

/-- C3, amended. For every non-negative integer `raw` whose quotient fits the
`int64` return type (`raw / 10^18 < 2^63`), given as a `*big.Int` or as its
base-10 string, `ToRoundedTara raw` is `floor (raw / 10^18)`. -/
theorem ToRoundedTara_floor (raw : Int) (h0 : 0 ≤ raw) (h1 : raw / 10 ^ 18 < 2 ^ 63) :
    ToRoundedTara (.bigInt (some raw)) = .ok (raw / 10 ^ 18) ∧
      ToRoundedTara (.str (intString raw)) = .ok (raw / 10 ^ 18) :=
  floor_of_quotient raw h0 h1

/-- C3 at the spec's example: 2.5 units, as a `*big.Int` and as a string, give 2. -/
theorem ToRoundedTara_floor_witness :
    ToRoundedTara (.bigInt (some 2500000000000000000)) = .ok 2 ∧
      ToRoundedTara (.str (intString 2500000000000000000)) = .ok 2 :=
  ToRoundedTara_floor 2500000000000000000 (by decide) (by decide)

/-- C3 as stated fails where the quotient leaves `int64`: at `raw = 2^63 * 10^18`
the floor is `2^63` and `ToRoundedTara` returns `-2^63`, for either input form. -/
theorem ToRoundedTara_wraps :
    ((2 : Int) ^ 63 * 10 ^ 18) / 10 ^ 18 = 2 ^ 63 ∧
      ToRoundedTara (.bigInt (some (2 ^ 63 * 10 ^ 18))) = .ok (-(2 ^ 63)) ∧
      ToRoundedTara (.str (intString (2 ^ 63 * 10 ^ 18))) = .ok (-(2 ^ 63)) ∧
      ToRoundedTara (.bigInt (some (2 ^ 63 * 10 ^ 18))) ≠ .ok (((2 : Int) ^ 63 * 10 ^ 18) / 10 ^ 18) := by
  decide

/-! ## C2: the delegation step -/

/-- The delegation step on a balance `b` whose whole units `float64` holds
exactly: one delegate of the whole units when there are more than one, nothing
otherwise. -/
theorem delegationStep_of_balance (w : World) (auth : TransactOpts) (k : Nat) (b : Int)
    (hb : 0 ≤ b) (hr : b / 10 ^ 18 ≤ 2 ^ 53) (hw : w.balanceAt.1 = some b) :
    delegationStep w auth k =
      if 1 < b / 10 ^ 18 then
        ⟨[⟨.balanceAt, w.balanceAt.2, some auth.Nonce⟩,
          ⟨.delegate delegateTo auth.Nonce (b / 10 ^ 18 * 10 ^ 18), w.submit k, some auth.Nonce⟩],
          if w.submit k then .finished else .aborted⟩
      else ⟨[⟨.balanceAt, w.balanceAt.2, some auth.Nonce⟩], .finished⟩ := by
  obtain ⟨d, hd⟩ := ToDecimal_ok (some b)
  have hq0 : 0 ≤ b / 10 ^ 18 := Int.ediv_nonneg hb (by norm_num)
  have hwhole : ToRoundedTara (.bigInt (some b)) = .ok (b / 10 ^ 18) :=
    (floor_of_quotient b hb (lt_of_le_of_lt hr (by norm_num))).1
  have hwei : ToWei w.newFromFloat (.int64 (b / 10 ^ 18)) 18 = .ok (b / 10 ^ 18 * 10 ^ 18) :=
    ToWei_int64 _ _ (by
      have : ((b / 10 ^ 18).natAbs : Int) = b / 10 ^ 18 := Int.natAbs_of_nonneg hq0
      have h2 : ((b / 10 ^ 18).natAbs : Int) ≤ 2 ^ 53 := by rw [this]; exact hr
      exact_mod_cast h2)
  by_cases h1 : 1 < b / 10 ^ 18
  · have h1' : b / 10 ^ 18 > 1 := h1
    simp only [delegationStep, hw, hd, hwhole, h1', if_true, hwei, h1]
  · have h1' : ¬ b / 10 ^ 18 > 1 := h1
    simp only [delegationStep, hw, hd, hwhole, h1', if_false, h1]

/-- C2, amended. For every non-negative settled balance `b` with at most 2^53
whole units, the delegation step submits a delegate transaction if and only if
`floor (b / 10^18) > 1`, and the transaction it then submits has value
`floor (b / 10^18) * 10^18` and goes to `delegateTo`. -/
theorem delegation_step_threshold (w : World) (auth : TransactOpts) (k : Nat) (b : Int)
    (hb : 0 ≤ b) (hr : b / 10 ^ 18 ≤ 2 ^ 53) (hw : w.balanceAt.1 = some b) :
    (1 < b / 10 ^ 18 →
        submissions (delegationStep w auth k).trace =
          [(.delegate delegateTo auth.Nonce (b / 10 ^ 18 * 10 ^ 18), w.submit k)]) ∧
      (¬ 1 < b / 10 ^ 18 → submissions (delegationStep w auth k).trace = []) := by
  rw [delegationStep_of_balance w auth k b hb hr hw]
  constructor
  · intro h
    rw [if_pos h]
    rfl
  · intro h
    rw [if_neg h]
    rfl

/-- C2 at the spec's two balances: 1.9 units submit nothing, 2 units submit one
delegation of exactly 2 * 10^18. -/
theorem delegation_step_threshold_witness :
    submissions (delegationStep { sampleWorld with balanceAt := (some 1900000000000000000, true) }
        sampleAuth 3).trace = [] ∧
      submissions (delegationStep { sampleWorld with balanceAt := (some 2000000000000000000, true) }
        sampleAuth 3).trace = [(.delegate delegateTo 5 2000000000000000000, true)] :=
  ⟨(delegation_step_threshold { sampleWorld with balanceAt := (some 1900000000000000000, true) }
      sampleAuth 3 1900000000000000000 (by decide) (by decide) rfl).2 (by decide),
    (delegation_step_threshold { sampleWorld with balanceAt := (some 2000000000000000000, true) }
      sampleAuth 3 2000000000000000000 (by decide) (by decide) rfl).1 (by decide)⟩

/-- C2 as stated fails on large balances. On `2^63 * 10^18` the whole units,
`2^63`, exceed 1, yet `ToRoundedTara` wraps to `-2^63` and nothing is submitted. On
`(2^53 + 1) * 10^18` the delegation is submitted with value `2^53 * 10^18`, one unit
short: `float64(2^53 + 1)` is `2^53`. -/
theorem delegation_step_skips_large_balance :
    1 < ((2 : Int) ^ 63 * 10 ^ 18) / 10 ^ 18 ∧
      submissions (delegationStep { sampleWorld with balanceAt := (some (2 ^ 63 * 10 ^ 18), true) }
        sampleAuth 3).trace = [] ∧
      (((2 : Int) ^ 53 + 1) * 10 ^ 18) / 10 ^ 18 = 2 ^ 53 + 1 ∧
      submissions (delegationStep
          { sampleWorld with balanceAt := (some ((2 ^ 53 + 1) * 10 ^ 18), true) }
        sampleAuth 3).trace = [(.delegate delegateTo 5 (2 ^ 53 * 10 ^ 18), true)] := by
  decide

/-! ## C4: the settlement barrier -/

/-- C4 fails on the code: expecting nonce 0, the barrier returns on its first
poll although that poll failed, because the zero `nonce` that comes with the
error is compared all the same. On a fresh account with nothing to claim, `main`
then goes on to read the balance and delegate. -/
theorem barrier_returns_on_failed_poll :
    waitForAllConfirmed (fun _ => (0, false)) 0 1 0 = ([(0, false)], true) ∧
      sequencing (main freshAccountWorld 1).trace =
        [(.pollPendingNonce 0, false), (.delegate delegateTo 0 10000000000000000000, true)] := by
  decide

/-! ## C6 and C10: `ToDecimal` divides at 16 places -/

/-- C6 fails on the code: `x = 0.000000000000000001` is exact at scale 18, `ToWei`
turns it into 1, and `ToDecimal` turns 1 back into 0, not into `x`. -/
theorem round_trip_loses_smallest_unit :
    (∀ digits, ToWei digits (.decimal ⟨1, -18⟩) 18 = .ok 1) ∧
      ToDecimal (.bigInt (some 1)) 18 = .ok ⟨0, -16⟩ ∧
      (⟨0, -16⟩ : Decimal).toRat ≠ (⟨1, -18⟩ : Decimal).toRat := by
  refine ⟨fun _ => rfl, by decide, ?_⟩
  simp only [Decimal.toRat]
  norm_num

/-- C10 fails on the code: `raw = 123456789012345678901`, well below 2^256, at
scale 18 is 123.456789012345678901, and `ToDecimal` returns
123.4567890123456789, for either input form. -/
theorem ToDecimal_rounds_at_16_places :
    ToDecimal (.bigInt (some 123456789012345678901)) 18 = .ok ⟨1234567890123456789, -16⟩ ∧
      ToDecimal (.str (intString 123456789012345678901)) 18 = .ok ⟨1234567890123456789, -16⟩ ∧
      (⟨1234567890123456789, -16⟩ : Decimal).toRat ≠ (123456789012345678901 : ℚ) / 10 ^ 18 := by
  refine ⟨by decide, by decide, ?_⟩
  simp only [Decimal.toRat]
  norm_num

/-! ## C5: the whole run -/

theorem waitForAllConfirmed_settles (polls : Nat → Nat × Bool) (e : Nat) :
    ∀ (fuel i j : Nat), j < fuel → (∀ t, t < j → (polls (i + t)).1 ≠ e) → (polls (i + j)).1 = e →
      waitForAllConfirmed polls e fuel i = ((List.range (j + 1)).map (fun t => polls (i + t)), true) := by
  intro fuel
  induction fuel with
  | zero => intro i j h; omega
  | succ fuel ih =>
    intro i j hj hne he
    cases j with
    | zero =>
      have he0 : (polls i).1 = e := by simpa using he
      simp [waitForAllConfirmed, he0, List.range_succ]
    | succ j =>
      have h0 : (polls i).1 ≠ e := by simpa using hne 0 (by omega)
      have hrec := ih (i + 1) j (by omega)
        (fun t ht => by rw [show i + 1 + t = i + (t + 1) by omega]; exact hne (t + 1) (by omega))
        (by rw [show i + 1 + j = i + (j + 1) by omega]; exact he)
      simp only [waitForAllConfirmed, h0, if_false, hrec]
      rw [List.range_succ_eq_map (j + 1)]
      simp only [List.map_cons, List.map_map, Nat.add_zero, Prod.mk.injEq, List.cons.injEq,
        true_and, and_true]
      apply List.map_congr_left
      intro t _
      simp only [Function.comp, Nat.succ_eq_add_one]
      rw [show i + 1 + t = i + (t + 1) by omega]

/-- With a key, a connection, a transactor and a contract binding, `main` is the
workflow on the session of `prepareTransactOps`, after eight calls none of which
is a transaction or a barrier poll. -/
theorem main_eq_workflow (w : World) (fuel : Nat) (hkey : w.hexToECDSA = true)
    (hdial : w.dial = true) (htx : w.newKeyedTransactor = true)
    (hcontract : w.newTaraxaDposClient = true) :
    ∃ pre, main w fuel =
        (workflow w fuel ⟨wrapInt64 w.pendingNonceAt.1, 0, 300000, w.suggestGasPrice⟩).after pre ∧
      ∀ s ∈ pre, s.call.isSequencing = false := by
  refine ⟨_, by simp only [main, hkey, hdial, if_true, prepareTransactOps, htx, hcontract]; rfl, ?_⟩
  intro s hs
  simp only [List.mem_append, List.mem_cons, List.mem_singleton, List.not_mem_nil, or_false] at hs
  rcases hs with ((rfl | rfl | rfl) | (rfl | rfl) | rfl) | rfl | rfl <;> rfl


theorem project_pollSteps (e : Nat) (auth : TransactOpts) (seen : List (Nat × Bool)) :
    project Call.isSequencing (pollSteps e auth seen) =
      seen.map (fun p => (Call.pollPendingNonce e, p.2)) := by
  rw [project_all]
  · simp [pollSteps, List.map_map, Function.comp]
  · intro s hs
    simp only [pollSteps, List.mem_map] at hs
    obtain ⟨_, _, rfl⟩ := hs
    rfl

/-- C5, amended. A run of `main` in which the session is set up, both discoveries
and every submission succeed, the barrier's poll number `j` is the first to return
`n + d + v`, and the settled balance `b` has more than one and at most 2^53 whole
units, for a starting nonce `n < 2^63` with `n + d + v < 2^64`: the run ends normally,
and its transactions and polls are, in order, the `d + v` claims at nonces
`n .. n+d+v-1`, the `j + 1` polls awaiting `n + d + v`, and one delegate at nonce
`n + d + v` with value `floor (b / 10^18) * 10^18`. -/
theorem successful_run (w : World) (fuel n : Nat) (D : List DelegationData)
    (V : List ValidatorData) (b : Int) (j : Nat)
    (hkey : w.hexToECDSA = true) (hdial : w.dial = true) (hnonce : w.pendingNonceAt.1 = n)
    (htx : w.newKeyedTransactor = true) (hcontract : w.newTaraxaDposClient = true)
    (hD : w.getDelegations = some D) (hV : w.getValidatorsFor = some V)
    (hsub : ∀ i, i ≤ D.length + V.length → w.submit i = true)
    (hwait : ∀ t, t < j → (w.polls t).1 ≠ n + D.length + V.length)
    (hsettled : (w.polls j).1 = n + D.length + V.length) (hfuel : j < fuel)
    (hbal : w.balanceAt.1 = some b) (hb : 1 < b / 10 ^ 18) (hr : b / 10 ^ 18 ≤ 2 ^ 53)
    (hn : n < 2 ^ 63) (hn2 : n + D.length + V.length < 2 ^ 64) :
    (main w fuel).outcome = .finished ∧
      sequencing (main w fuel).trace =
        (claimPlan n 0 D V).map (fun c => (c, true)) ++
          (List.range (j + 1)).map
            (fun t => (Call.pollPendingNonce (n + D.length + V.length), (w.polls t).2)) ++
          [(.delegate delegateTo ((n + D.length + V.length : Nat) : Int) (b / 10 ^ 18 * 10 ^ 18),
            true)] := by
  obtain ⟨pre0, e0, q0⟩ := main_eq_workflow w fuel hkey hdial htx hcontract
  have hwrap : wrapInt64 (w.pendingNonceAt.1 : Int) = (n : Int) := by
    rw [hnonce]
    exact wrapInt64_of_lt _ (by omega) (by exact_mod_cast hn)
  rw [hwrap] at e0
  obtain ⟨pre1, e1, q1⟩ := workflow_all_ok w fuel ⟨(n : Int), 0, 300000, w.suggestGasPrice⟩ D V hD hV
    (fun i hi => hsub i (by omega))
  have hnonce' : ((n : Int) + ((D.length + V.length : Nat) : Int)) =
      ((n + D.length + V.length : Nat) : Int) := by push_cast; ring
  simp only [hnonce'] at e1
  have hu : Uint64 ((n + D.length + V.length : Nat) : Int) = n + D.length + V.length :=
    Uint64_natCast _ hn2
  have hbar := waitForAllConfirmed_settles w.polls (n + D.length + V.length) fuel 0 j hfuel
    (fun t ht => by rw [Nat.zero_add]; exact hwait t ht) (by rw [Nat.zero_add]; exact hsettled)
  simp only [Nat.zero_add] at hbar
  have hb0 : 0 ≤ b := by
    by_contra hneg
    have : b / 10 ^ 18 < 0 := Int.ediv_neg' (by omega) (by norm_num)
    omega
  have hdel := delegationStep_of_balance w
    ⟨((n + D.length + V.length : Nat) : Int), 0, 300000, w.suggestGasPrice⟩
    (D.length + V.length) b hb0 hr hbal
  rw [if_pos hb, hsub _ le_rfl] at hdel
  have hsettle : settleAndDelegate w fuel
      ⟨((n + D.length + V.length : Nat) : Int), 0, 300000, w.suggestGasPrice⟩
      (D.length + V.length) =
      (delegationStep w ⟨((n + D.length + V.length : Nat) : Int), 0, 300000, w.suggestGasPrice⟩
        (D.length + V.length)).after
        (pollSteps (n + D.length + V.length)
          ⟨((n + D.length + V.length : Nat) : Int), 0, 300000, w.suggestGasPrice⟩
          ((List.range (j + 1)).map (fun t => w.polls t))) := by
    simp only [settleAndDelegate, hu, hbar, if_true]
  rw [e0, e1, hsettle, hdel]
  refine ⟨rfl, ?_⟩
  simp only [after_trace, sequencing, project_append]
  rw [project_none _ pre0 q0, q1 _ keepsClaims_isSequencing, project_pollSteps]
  simp only [List.nil_append, List.map_map, Function.comp, List.append_assoc]
  rfl

/-- C5 at the spec's scenario: two delegations, one validator, starting nonce 5,
10.4 units settled. Claims at nonces 5, 6 and 7, four polls awaiting 8, and a
delegation of 10 whole units at nonce 8. -/
theorem successful_run_witness :
    (main sampleWorld 10).outcome = .finished ∧
      sequencing (main sampleWorld 10).trace =
        [(.claimRewards 11 5 0, true), (.claimRewards 12 6 0, true),
          (.claimCommissionRewards 13 7 0, true),
          (.pollPendingNonce 8, true), (.pollPendingNonce 8, true), (.pollPendingNonce 8, true),
          (.pollPendingNonce 8, true),
          (.delegate delegateTo 8 10000000000000000000, true)] :=
  have h := successful_run sampleWorld 10 5 [⟨11, some 5, some 7⟩, ⟨12, some 1, some 2⟩]
    [⟨13, some 1, some 1⟩] 10400000000000000000 3 rfl rfl rfl rfl rfl rfl rfl (fun _ _ => rfl)
    (fun t ht => by
      show 5 + t ≠ 5 + 2 + 1
      omega)
    rfl (by decide) rfl (by decide) (by decide) (by decide) (by decide)
  ⟨h.1, h.2.trans (by decide)⟩

/-- C5 as stated fails for large inputs. With `2^63 * 10^18` settled, more than one
whole unit, the run ends after the balance read without a delegate; with
`(2^53 + 1) * 10^18` settled the delegate carries `2^53 * 10^18`; and with starting
nonce `n = 2^63 + 1` the first claim is made with `auth.Nonce = -(2^63 - 1)`, which
is not `n` in value or in magnitude. -/
theorem successful_run_large_inputs :
    1 < ((2 : Int) ^ 63 * 10 ^ 18) / 10 ^ 18 ∧
      sequencing (main { sampleWorld with balanceAt := (some (2 ^ 63 * 10 ^ 18), true) } 10).trace =
        [(.claimRewards 11 5 0, true), (.claimRewards 12 6 0, true),
          (.claimCommissionRewards 13 7 0, true),
          (.pollPendingNonce 8, true), (.pollPendingNonce 8, true), (.pollPendingNonce 8, true),
          (.pollPendingNonce 8, true)] ∧
      (sequencing
          (main { sampleWorld with balanceAt := (some ((2 ^ 53 + 1) * 10 ^ 18), true) } 10).trace).getLast? =
        some (.delegate delegateTo 8 (2 ^ 53 * 10 ^ 18), true) ∧
      (sequencing (main { sampleWorld with pendingNonceAt := (2 ^ 63 + 1, true) } 0).trace).head? =
        some (.claimRewards 11 (-(2 ^ 63 - 1)) 0, true) := by
  decide

/-! ## The ways `main` ends before the workflow -/

theorem main_no_key (w : World) (fuel : Nat) (hkey : w.hexToECDSA = false) :
    main w fuel = ⟨[⟨.hexToECDSA, false, none⟩], .panicked⟩ := by
  simp only [main, hkey, Bool.false_eq_true, if_false]

theorem main_no_dial (w : World) (fuel : Nat) (hkey : w.hexToECDSA = true)
    (hdial : w.dial = false) :
    main w fuel = ⟨[⟨.hexToECDSA, true, none⟩, ⟨.dial, false, none⟩], .aborted⟩ := by
  simp only [main, hkey, hdial, Bool.false_eq_true, if_false, if_true]

theorem main_no_transactor (w : World) (fuel : Nat) (hkey : w.hexToECDSA = true)
    (hdial : w.dial = true) (htx : w.newKeyedTransactor = false) :
    main w fuel =
      ⟨[⟨.hexToECDSA, true, none⟩, ⟨.dial, true, none⟩, ⟨.chainID, w.chainID.isSome, none⟩,
        ⟨.pendingNonceAt, w.pendingNonceAt.2, none⟩,
        ⟨.suggestGasPrice, w.suggestGasPrice.isSome, none⟩,
        ⟨.newKeyedTransactor, false, none⟩], .panicked⟩ := by
  simp only [main, hkey, hdial, prepareTransactOps, htx, Bool.false_eq_true, if_false, if_true]
  rfl

theorem main_no_contract (w : World) (fuel : Nat) (hkey : w.hexToECDSA = true)
    (hdial : w.dial = true) (htx : w.newKeyedTransactor = true)
    (hcontract : w.newTaraxaDposClient = false) :
    main w fuel =
      ⟨[⟨.hexToECDSA, true, none⟩, ⟨.dial, true, none⟩, ⟨.chainID, w.chainID.isSome, none⟩,
        ⟨.pendingNonceAt, w.pendingNonceAt.2, none⟩,
        ⟨.suggestGasPrice, w.suggestGasPrice.isSome, none⟩,
        ⟨.newKeyedTransactor, true, some (wrapInt64 w.pendingNonceAt.1)⟩,
        ⟨.blockNumber, w.blockNumber, some (wrapInt64 w.pendingNonceAt.1)⟩,
        ⟨.newTaraxaDposClient, false, some (wrapInt64 w.pendingNonceAt.1)⟩], .aborted⟩ := by
  simp only [main, hkey, hdial, prepareTransactOps, htx, hcontract, Bool.false_eq_true, if_false,
    if_true]
  rfl

theorem main_with_contract (w : World) (fuel : Nat) (hkey : w.hexToECDSA = true)
    (hdial : w.dial = true) (htx : w.newKeyedTransactor = true)
    (hcontract : w.newTaraxaDposClient = true) :
    main w fuel =
      (workflow w fuel ⟨wrapInt64 w.pendingNonceAt.1, 0, 300000, w.suggestGasPrice⟩).after
        [⟨.hexToECDSA, true, none⟩, ⟨.dial, true, none⟩, ⟨.chainID, w.chainID.isSome, none⟩,
          ⟨.pendingNonceAt, w.pendingNonceAt.2, none⟩,
          ⟨.suggestGasPrice, w.suggestGasPrice.isSome, none⟩,
          ⟨.newKeyedTransactor, true, some (wrapInt64 w.pendingNonceAt.1)⟩,
          ⟨.blockNumber, w.blockNumber, some (wrapInt64 w.pendingNonceAt.1)⟩,
          ⟨.newTaraxaDposClient, true, some (wrapInt64 w.pendingNonceAt.1)⟩] := by
  simp only [main, hkey, hdial, prepareTransactOps, htx, hcontract, if_true]
  rfl

/-! ## C1: the claim orchestrator -/

theorem not_sequencing (c : Call) (h : c.isSequencing = false) :
    c.isClaim = false ∧ c.isSubmission = false := by
  cases c <;> simp_all [Call.isSequencing, Call.isSubmission, Call.isPoll, Call.isClaim]

/-- C1, amended. A run of `main` that reaches the claim orchestrator with a
starting nonce `n < 2^63` (and `n + d + v` within `uint64`), on delegations `D`
and validators `V`: the claims it attempts are, in order, one `claimRewards` per
element of `D` then one `claimCommissionRewards` per element of `V`, the `i`-th
sent with nonce `n + i`. When the first `k` submissions succeed and `k = d + v`,
exactly the `d + v` claims are submitted, all successfully; when the `(k+1)`-th is
the first to fail, the transactions of the whole run are the first `k` claims,
successful, and the failed one: the run aborts there, and no claim or delegate
follows. -/
theorem claim_orchestrator_sequence (w : World) (fuel n : Nat)
    (D : List DelegationData) (V : List ValidatorData) (k : Nat)
    (hkey : w.hexToECDSA = true) (hdial : w.dial = true) (htx : w.newKeyedTransactor = true)
    (hcontract : w.newTaraxaDposClient = true)
    (hnonce : w.pendingNonceAt.1 = n) (hn : n < 2 ^ 63)
    (hn2 : n + D.length + V.length ≤ 2 ^ 64)
    (hD : w.getDelegations = some D) (hV : w.getValidatorsFor = some V)
    (hk : k ≤ D.length + V.length)
    (hok : ∀ i, i < k → w.submit i = true)
    (hfail : k < D.length + V.length → w.submit k = false) :
    (claimPlan n 0 D V).map Call.txNonce =
        (List.range (D.length + V.length)).map (fun (i : Nat) => some (n + i)) ∧
      claims (main w fuel).trace = attemptsUpTo (claimPlan n 0 D V) k ∧
      (k = D.length + V.length →
        claims (main w fuel).trace = (claimPlan n 0 D V).map (fun c => (c, true))) ∧
      (k < D.length + V.length →
        submissions (main w fuel).trace = attemptsUpTo (claimPlan n 0 D V) k ∧
          (main w fuel).outcome = .aborted ∧
          ((main w fuel).trace.getLast?).map (·.ok) = some false) := by
  obtain ⟨pre0, e0, q0⟩ := main_eq_workflow w fuel hkey hdial htx hcontract
  have hwrap : wrapInt64 (w.pendingNonceAt.1 : Int) = (n : Int) := by
    rw [hnonce]
    exact wrapInt64_of_lt _ (by omega) (by exact_mod_cast hn)
  rw [hwrap] at e0
  obtain ⟨h2, h3, h4⟩ := workflow_claim_sequence w fuel ⟨(n : Int), 0, 300000, w.suggestGasPrice⟩
    D V k hD hV hk hok hfail
  have hc : project Call.isClaim pre0 = [] :=
    project_none _ _ (fun s hs => (not_sequencing _ (q0 s hs)).1)
  have hsub : project Call.isSubmission pre0 = [] :=
    project_none _ _ (fun s hs => (not_sequencing _ (q0 s hs)).2)
  refine ⟨claimPlan_txNonce n 0 D V hn2, ?_, ?_, ?_⟩
  · rw [e0, after_trace, claims, project_append, hc, List.nil_append]
    exact h2
  · intro hke
    rw [e0, after_trace, claims, project_append, hc, List.nil_append]
    exact h3 hke
  · intro hlt
    obtain ⟨a, b, c⟩ := h4 hlt
    refine ⟨?_, ?_, ?_⟩
    · rw [e0, after_trace, submissions, project_append, hsub, List.nil_append]
      exact a
    · rw [e0, after_outcome]
      exact b
    · rw [e0, after_trace, List.getLast?_append]
      cases hg : (workflow w fuel ⟨(n : Int), 0, 300000, w.suggestGasPrice⟩).trace.getLast? with
      | none => simp [hg] at c
      | some s => simpa [hg] using c

/-- C1 on the sample chain, starting nonce 5, with the second submission failing:
the run submits the claim at nonce 5, fails the one at nonce 6 and submits nothing
more. -/
theorem claim_orchestrator_sequence_witness :
    submissions (main secondClaimFailsWorld 4).trace =
      [(.claimRewards 11 5 0, true), (.claimRewards 12 6 0, false)] :=
  ((claim_orchestrator_sequence secondClaimFailsWorld 4 5
    [⟨11, some 5, some 7⟩, ⟨12, some 1, some 2⟩] [⟨13, some 1, some 1⟩] 1 rfl rfl rfl rfl rfl
    (by decide) (by decide) rfl rfl (by decide)
    (fun i hi => by
      have h0 : i = 0 := by omega
      subst h0
      rfl)
    (fun _ => rfl)).2.2.2 (by decide)).1.trans (by decide)

/-- C1 as stated fails for a starting nonce beyond `int64`: with `n = 2^63 + 1` the
session nonce is `int64(n) = -(2^63 - 1)`, and the three claims are sent with
nonces `2^63 - 1`, `2^63 - 2`, `2^63 - 3`, not `n`, `n + 1`, `n + 2`. -/
theorem claim_nonces_wrap_at_large_start :
    largeNonceWorld.pendingNonceAt.1 = 2 ^ 63 + 1 ∧
      (claims (main largeNonceWorld 0).trace).map (fun a => a.1.txNonce) =
        [some (2 ^ 63 - 1), some (2 ^ 63 - 2), some (2 ^ 63 - 3)] ∧
      (claims (main largeNonceWorld 0).trace).map (fun a => a.1.txNonce) ≠
        (List.range 3).map (fun (i : Nat) => some (2 ^ 63 + 1 + i)) := by
  decide

/-! ## C7: the session nonce -/

theorem successfulClaims_append (a b : List Step) :
    successfulClaims (a ++ b) = successfulClaims a + successfulClaims b := by
  simp [successfulClaims, List.filter_append]

theorem successfulClaims_cons (s : Step) (l : List Step) :
    successfulClaims (s :: l) = successfulClaims [s] + successfulClaims l :=
  successfulClaims_append [s] l

theorem nonceTracks_append (n0 : Int) (a : List Step) :
    ∀ (c : Nat) (b : List Step),
      NonceTracks n0 c (a ++ b) ↔ NonceTracks n0 c a ∧ NonceTracks n0 (c + successfulClaims a) b := by
  induction a with
  | nil => intro c b; simp [NonceTracks, successfulClaims]
  | cons s a ih =>
    intro c b
    show (_ ∧ NonceTracks n0 _ (a ++ b)) ↔ (_ ∧ NonceTracks n0 _ a) ∧ _
    rw [ih, successfulClaims_cons s a, and_assoc, Nat.add_assoc]

theorem nonceTracks_get (n0 : Int) (l : List Step) :
    ∀ (c i : Nat) (s : Step) (x : Int), NonceTracks n0 c l → l[i]? = some s → s.nonce = some x →
      x = n0 + ((c + successfulClaims (l.take (i + 1)) : Nat) : Int) := by
  induction l with
  | nil => intro c i s x _ hs; simp at hs
  | cons t l ih =>
    intro c i s x h hs hx
    cases i with
    | zero =>
      simp only [List.getElem?_cons_zero, Option.some.injEq] at hs
      subst hs
      simpa using h.1 x hx
    | succ i =>
      simp only [List.getElem?_cons_succ] at hs
      have := ih (c + successfulClaims [t]) i s x h.2 hs hx
      rw [this, List.take_succ_cons, successfulClaims_cons t (List.take (i + 1) l), Nat.add_assoc]

/-- Steps that are no claims and record the nonce `n0 + c`, or none. -/
theorem nonceTracks_plain (n0 : Int) (c : Nat) (l : List Step)
    (h : ∀ s ∈ l, s.call.isClaim = false ∧ ∀ x, s.nonce = some x → x = n0 + (c : Int)) :
    NonceTracks n0 c l ∧ successfulClaims l = 0 := by
  induction l with
  | nil => exact ⟨trivial, rfl⟩
  | cons s l ih =>
    have hs := h s (List.mem_cons_self _ _)
    have h0 : successfulClaims [s] = 0 := by simp [successfulClaims, hs.1]
    obtain ⟨a, b⟩ := ih (fun t ht => h t (List.mem_cons_of_mem _ ht))
    refine ⟨⟨?_, ?_⟩, ?_⟩
    · intro x hx
      rw [h0, Nat.add_zero]
      exact hs.2 x hx
    · rw [h0, Nat.add_zero]
      exact a
    · rw [successfulClaims_cons, h0, b]

theorem nonceTracks_claimLoop (n0 : Int) (w : World) (call : Address → Int → Int → Call)
    (hc : ∀ a n v, (call a n v).isClaim = true) :
    ∀ (ps : List Position) (k : Nat) (auth : TransactOpts) (c : Nat), auth.Nonce = n0 + (c : Int) →
      NonceTracks n0 c (claimLoop w call ps k auth).steps ∧
        (claimLoop w call ps k auth).auth.Nonce =
          n0 + ((c + successfulClaims (claimLoop w call ps k auth).steps : Nat) : Int) := by
  intro ps
  induction ps with
  | nil => intro k auth c h; simp [claimLoop, NonceTracks, successfulClaims, h]
  | cons p rest ih =>
    intro k auth c h
    rw [claimLoop_cons]
    by_cases hs : w.submit k = true
    · rw [if_pos hs]
      have h1 : successfulClaims
          [(⟨call p.Account auth.Nonce auth.Value, true, some (auth.Nonce + 1)⟩ : Step)] = 1 := by
        simp [successfulClaims, hc]
      obtain ⟨a, b⟩ := ih (k + 1) { auth with Nonce := auth.Nonce + 1 } (c + 1)
        (by simp only [h]; push_cast; ring)
      refine ⟨⟨?_, ?_⟩, ?_⟩
      · intro x hx
        simp only [Option.some.injEq] at hx
        rw [h1, ← hx, h]
        push_cast
        ring
      · rw [h1]
        exact a
      · rw [successfulClaims_cons, h1, b]
        push_cast
        ring
    · rw [if_neg hs]
      have h0 : successfulClaims
          [(⟨call p.Account auth.Nonce auth.Value, false, some auth.Nonce⟩ : Step)] = 0 := by
        simp [successfulClaims]
      refine ⟨⟨?_, ?_⟩, ?_⟩
      · intro x hx
        simp only [Option.some.injEq] at hx
        rw [h0, ← hx, h, Nat.add_zero]
      · exact trivial
      · rw [h0, Nat.add_zero]
        exact h

theorem nonceTracks_settleAndDelegate (n0 : Int) (w : World) (fuel : Nat) (auth : TransactOpts)
    (k c : Nat) (h : auth.Nonce = n0 + (c : Int)) :
    NonceTracks n0 c (settleAndDelegate w fuel auth k).trace := by
  apply (nonceTracks_plain n0 c _ _).1
  intro s hs
  refine ⟨settleAndDelegate_no_claims w fuel auth k s hs, ?_⟩
  intro x hx
  obtain ⟨seen, ht | ht⟩ := settleAndDelegate_trace w fuel auth k
  · rw [ht] at hs
    simp only [pollSteps, List.mem_map] at hs
    obtain ⟨_, _, rfl⟩ := hs
    simp only [Option.some.injEq] at hx
    rw [← hx, h]
  · rw [ht, List.mem_append] at hs
    rcases hs with hs | hs
    · simp only [pollSteps, List.mem_map] at hs
      obtain ⟨_, _, rfl⟩ := hs
      simp only [Option.some.injEq] at hx
      rw [← hx, h]
    · rcases delegationStep_trace w auth k with h2 | ⟨v, h2, _⟩ <;> rw [h2] at hs <;>
        simp at hs <;> rcases hs with rfl | rfl <;> simp only [Option.some.injEq] at hx <;>
        rw [← hx, h]

theorem nonceTracks_claimValidators (n0 : Int) (w : World) (fuel : Nat) (auth : TransactOpts)
    (k c : Nat) (h : auth.Nonce = n0 + (c : Int)) :
    NonceTracks n0 c (claimValidators w fuel auth k).trace := by
  unfold claimValidators
  cases hV : w.getValidatorsFor with
  | none =>
    exact (nonceTracks_plain n0 c _ (by
      intro s hs
      simp only [List.mem_singleton] at hs
      subst hs
      exact ⟨rfl, fun x hx => by simp only [Option.some.injEq] at hx; rw [← hx, h]⟩)).1
  | some V =>
    obtain ⟨a, b⟩ := nonceTracks_claimLoop n0 w .claimCommissionRewards (fun _ _ _ => rfl)
      (V.map ValidatorData.position) k auth c h
    have hfirst : successfulClaims [(⟨.getValidatorsFor, true, some auth.Nonce⟩ : Step)] = 0 := rfl
    have hpre : NonceTracks n0 c (⟨.getValidatorsFor, true, some auth.Nonce⟩ ::
        (claimLoop w .claimCommissionRewards (V.map ValidatorData.position) k auth).steps) := by
      refine ⟨?_, ?_⟩
      · intro x hx
        simp only [Option.some.injEq] at hx
        rw [hfirst, ← hx, h, Nat.add_zero]
      · rw [hfirst, Nat.add_zero]
        exact a
    simp only []
    cases hstop : (claimLoop w .claimCommissionRewards (V.map ValidatorData.position) k auth).stop with
    | some o => exact hpre
    | none =>
      simp only [after_trace]
      rw [nonceTracks_append]
      refine ⟨hpre, ?_⟩
      apply nonceTracks_settleAndDelegate
      rw [b, successfulClaims_cons, hfirst, Nat.zero_add]

theorem nonceTracks_workflow (n0 : Int) (w : World) (fuel : Nat) (auth : TransactOpts)
    (h : auth.Nonce = n0) : NonceTracks n0 0 (workflow w fuel auth).trace := by
  unfold workflow
  cases hD : w.getDelegations with
  | none =>
    exact (nonceTracks_plain n0 0 _ (by
      intro s hs
      simp only [List.mem_singleton] at hs
      subst hs
      exact ⟨rfl, fun x hx => by simp only [Option.some.injEq] at hx; rw [← hx, h]; simp⟩)).1
  | some D =>
    obtain ⟨a, b⟩ := nonceTracks_claimLoop n0 w .claimRewards (fun _ _ _ => rfl)
      (D.map DelegationData.position) 0 auth 0 (by rw [h]; simp)
    have hfirst : successfulClaims [(⟨.getDelegations, true, some auth.Nonce⟩ : Step)] = 0 := rfl
    have hpre : NonceTracks n0 0 (⟨.getDelegations, true, some auth.Nonce⟩ ::
        (claimLoop w .claimRewards (D.map DelegationData.position) 0 auth).steps) := by
      refine ⟨?_, ?_⟩
      · intro x hx
        simp only [Option.some.injEq] at hx
        rw [hfirst, ← hx, h]
        simp
      · rw [hfirst, Nat.add_zero]
        exact a
    simp only []
    cases hstop : (claimLoop w .claimRewards (D.map DelegationData.position) 0 auth).stop with
    | some o => exact hpre
    | none =>
      simp only [after_trace]
      rw [nonceTracks_append]
      refine ⟨hpre, ?_⟩
      apply nonceTracks_claimValidators
      rw [b, successfulClaims_cons, hfirst]
      simp

theorem nonceTracks_main (w : World) (fuel : Nat) :
    NonceTracks (wrapInt64 w.pendingNonceAt.1) 0 (main w fuel).trace := by
  have plain : ∀ (n0 : Int) (l : List Step),
      (∀ s ∈ l, s.call.isClaim = false ∧ (s.nonce = none ∨ s.nonce = some n0)) →
      NonceTracks n0 0 l ∧ successfulClaims l = 0 := by
    intro n0 l h
    apply nonceTracks_plain
    intro s hs
    refine ⟨(h s hs).1, fun x hx => ?_⟩
    rcases (h s hs).2 with hn | hn
    · rw [hn] at hx
      exact absurd hx (by simp)
    · rw [hn] at hx
      simp only [Option.some.injEq] at hx
      rw [← hx]
      simp
  cases hkey : w.hexToECDSA with
  | false =>
    rw [main_no_key w fuel hkey]
    generalize wrapInt64 (w.pendingNonceAt.1 : Int) = n0
    refine (plain n0 _ ?_).1
    intro s hs
    simp only [List.mem_singleton] at hs
    subst hs
    exact ⟨rfl, Or.inl rfl⟩
  | true =>
    cases hdial : w.dial with
    | false =>
      rw [main_no_dial w fuel hkey hdial]
      generalize wrapInt64 (w.pendingNonceAt.1 : Int) = n0
      refine (plain n0 _ ?_).1
      intro s hs
      simp only [List.mem_cons, List.mem_singleton, List.not_mem_nil, or_false] at hs
      rcases hs with rfl | rfl <;> exact ⟨rfl, Or.inl rfl⟩
    | true =>
      cases htx : w.newKeyedTransactor with
      | false =>
        rw [main_no_transactor w fuel hkey hdial htx]
        generalize wrapInt64 (w.pendingNonceAt.1 : Int) = n0
        refine (plain n0 _ ?_).1
        intro s hs
        simp only [List.mem_cons, List.mem_singleton, List.not_mem_nil, or_false] at hs
        rcases hs with rfl | rfl | rfl | rfl | rfl | rfl <;> exact ⟨rfl, Or.inl rfl⟩
      | true =>
        cases hcontract : w.newTaraxaDposClient with
        | false =>
          rw [main_no_contract w fuel hkey hdial htx hcontract]
          generalize wrapInt64 (w.pendingNonceAt.1 : Int) = n0
          refine (plain n0 _ ?_).1
          intro s hs
          simp only [List.mem_cons, List.mem_singleton, List.not_mem_nil, or_false] at hs
          rcases hs with rfl | rfl | rfl | rfl | rfl | rfl | rfl | rfl <;>
            first
              | exact ⟨rfl, Or.inl rfl⟩
              | exact ⟨rfl, Or.inr rfl⟩
        | true =>
          rw [main_with_contract w fuel hkey hdial htx hcontract, after_trace, nonceTracks_append]
          have hw := nonceTracks_workflow (wrapInt64 (w.pendingNonceAt.1 : Int)) w fuel
            ⟨wrapInt64 w.pendingNonceAt.1, 0, 300000, w.suggestGasPrice⟩ rfl
          revert hw
          generalize (workflow w fuel ⟨wrapInt64 w.pendingNonceAt.1, 0, 300000,
            w.suggestGasPrice⟩).trace = tr
          generalize wrapInt64 (w.pendingNonceAt.1 : Int) = n0
          intro hw
          have hp := plain n0
            [⟨.hexToECDSA, true, none⟩, ⟨.dial, true, none⟩, ⟨.chainID, w.chainID.isSome, none⟩,
              ⟨.pendingNonceAt, w.pendingNonceAt.2, none⟩,
              ⟨.suggestGasPrice, w.suggestGasPrice.isSome, none⟩,
              ⟨.newKeyedTransactor, true, some n0⟩,
              ⟨.blockNumber, w.blockNumber, some n0⟩,
              ⟨.newTaraxaDposClient, true, some n0⟩] (by
            intro s hs
            simp only [List.mem_cons, List.mem_singleton, List.not_mem_nil, or_false] at hs
            rcases hs with rfl | rfl | rfl | rfl | rfl | rfl | rfl | rfl <;>
              first
                | exact ⟨rfl, Or.inl rfl⟩
                | exact ⟨rfl, Or.inr rfl⟩)
          refine ⟨hp.1, ?_⟩
          rw [hp.2]
          exact hw

/-- C7, amended. At every step boundary of a run of `main` at which the session
exists, `auth.Nonce` is the session's starting nonce (the nonce read at session
start, converted to `int64`) plus the number of claim transactions successfully
submitted so far. Every successful claim advances it by exactly 1 and nothing
else changes it: not a failed submission, a query, the barrier, or the delegate. -/
theorem session_nonce_invariant (w : World) (fuel i : Nat) (s : Step) (x : Int)
    (hs : (main w fuel).trace[i]? = some s) (hx : s.nonce = some x) :
    x = wrapInt64 w.pendingNonceAt.1 + (successfulClaims ((main w fuel).trace.take (i + 1)) : Int) := by
  have := nonceTracks_get _ _ 0 i s x (nonceTracks_main w fuel) hs hx
  rw [this, Nat.zero_add]

/-- C7 on the sample chain, after the third claim (step 12 of the run): the session
nonce is 8 = 5 + 3. -/
theorem session_nonce_invariant_witness :
    (8 : Int) = wrapInt64 sampleWorld.pendingNonceAt.1 +
      (successfulClaims ((main sampleWorld 10).trace.take (12 + 1)) : Int) :=
  session_nonce_invariant sampleWorld 10 12 ⟨.claimCommissionRewards 13 7 0, true, some 8⟩ 8
    (by decide) rfl

/-- C7 as stated fails after the delegate: on the sample chain the run's last step
is the successful delegate, four transactions have then been submitted
successfully from starting nonce 5, and the session nonce is 8, not 9. -/
theorem delegate_leaves_nonce :
    (main sampleWorld 10).trace[18]? =
        some ⟨.delegate delegateTo 8 10000000000000000000, true, some 8⟩ ∧
      (main sampleWorld 10).trace.length = 19 ∧
      successfulSubmissions (main sampleWorld 10).trace = 4 ∧
      sampleWorld.pendingNonceAt = (5, true) := by
  decide

/-! ## C8: a failed discovery -/

theorem workflow_no_delegations (w : World) (fuel : Nat) (auth : TransactOpts)
    (hD : w.getDelegations = none) :
    workflow w fuel auth = ⟨[⟨.getDelegations, false, some auth.Nonce⟩], .aborted⟩ := by
  simp only [workflow, hD]

theorem workflow_no_validators (w : World) (fuel : Nat) (auth : TransactOpts)
    (D : List DelegationData) (hD : w.getDelegations = some D)
    (hok : ∀ i, i < D.length → w.submit i = true) (hV : w.getValidatorsFor = none) :
    (workflow w fuel auth).outcome = .aborted ∧
      submissions (workflow w fuel auth).trace =
        (planFrom .claimRewards (D.map (·.Account)) auth.Nonce auth.Value).map (fun c => (c, true)) ∧
      (workflow w fuel auth).trace.getLast? =
        some ⟨.getValidatorsFor, false, some (auth.Nonce + D.length)⟩ := by
  obtain ⟨h1, h2, h3, h4⟩ := claimLoop_all_ok w .claimRewards
    (D.map DelegationData.position) 0 auth
    (by intro i hi; rw [Nat.zero_add]; exact hok i (by simpa using hi))
  simp only [List.length_map, Nat.zero_add] at h2 h3
  rw [map_position_delegations] at h4
  have hw : workflow w fuel auth =
      ⟨(⟨.getDelegations, true, some auth.Nonce⟩ ::
          (claimLoop w .claimRewards (D.map DelegationData.position) 0 auth).steps) ++
        [⟨.getValidatorsFor, false, some (auth.Nonce + D.length)⟩], .aborted⟩ := by
    simp only [workflow, hD, h1, claimValidators, hV, h2, Run.after]
  rw [hw]
  refine ⟨rfl, ?_, ?_⟩
  swap
  · show (_ ++ [_]).getLast? = _
    rw [List.getLast?_append]
    rfl
  rw [submissions, project_append, project_cons_false _ _ _ rfl,
    project_claimLoop _ w _ (fun _ _ _ => rfl), h4, project_cons_false _ _ _ rfl]
  simp [project]

/-- C8, amended. When `GetDelegations` fails, the run has submitted no
transaction. When `GetDelegations` returns `D`, the claims for `D` are accepted and
`GetValidatorsFor` then fails, the run aborts at that query having submitted
exactly one `claimRewards` per element of `D`, in order and with consecutive
nonces, and nothing else: no commission claim and no delegate. -/
theorem discovery_failure (w : World) (fuel : Nat) :
    (w.getDelegations = none →
        submissions (main w fuel).trace = [] ∧
          (w.hexToECDSA = true → w.dial = true → w.newKeyedTransactor = true →
            w.newTaraxaDposClient = true →
            (main w fuel).outcome = .aborted ∧
              (main w fuel).trace.getLast? =
                some ⟨.getDelegations, false, some (wrapInt64 w.pendingNonceAt.1)⟩)) ∧
      (∀ D : List DelegationData, w.hexToECDSA = true → w.dial = true →
        w.newKeyedTransactor = true → w.newTaraxaDposClient = true →
        w.getDelegations = some D → (∀ i, i < D.length → w.submit i = true) →
        w.getValidatorsFor = none →
        (main w fuel).outcome = .aborted ∧
          submissions (main w fuel).trace =
            (planFrom .claimRewards (D.map (·.Account)) (wrapInt64 w.pendingNonceAt.1) 0).map
              (fun c => (c, true)) ∧
          (main w fuel).trace.getLast? =
            some ⟨.getValidatorsFor, false, some (wrapInt64 w.pendingNonceAt.1 + D.length)⟩) := by
  constructor
  · intro hD
    constructor
    · cases hkey : w.hexToECDSA with
      | false => rw [main_no_key w fuel hkey]; rfl
      | true =>
        cases hdial : w.dial with
        | false => rw [main_no_dial w fuel hkey hdial]; rfl
        | true =>
          cases htx : w.newKeyedTransactor with
          | false => rw [main_no_transactor w fuel hkey hdial htx]; rfl
          | true =>
            cases hcontract : w.newTaraxaDposClient with
            | false => rw [main_no_contract w fuel hkey hdial htx hcontract]; rfl
            | true =>
              rw [main_with_contract w fuel hkey hdial htx hcontract,
                workflow_no_delegations w fuel _ hD]
              rfl
    · intro hkey hdial htx hcontract
      rw [main_with_contract w fuel hkey hdial htx hcontract, workflow_no_delegations w fuel _ hD]
      exact ⟨rfl, rfl⟩
  · intro D hkey hdial htx hcontract hD hok hV
    obtain ⟨o, q, l⟩ := workflow_no_validators w fuel
      ⟨wrapInt64 w.pendingNonceAt.1, 0, 300000, w.suggestGasPrice⟩ D hD hok hV
    rw [main_with_contract w fuel hkey hdial htx hcontract]
    refine ⟨o, ?_, ?_⟩
    · rw [after_trace, submissions, project_append]
      rw [submissions] at q
      rw [q]
      rfl
    · rw [after_trace, List.getLast?_append, l]
      rfl

/-- C8 on a chain with one delegation whose validator query fails: the run aborts
there with the one claim submitted. -/
theorem discovery_failure_witness :
    (main { validatorsFailWorld with getDelegations := some [⟨11, some 5, some 7⟩] } 10).outcome =
        .aborted ∧
      submissions
          (main { validatorsFailWorld with getDelegations := some [⟨11, some 5, some 7⟩] } 10).trace =
        [(.claimRewards 11 5 0, true)] :=
  have h := (discovery_failure
    { validatorsFailWorld with getDelegations := some [⟨11, some 5, some 7⟩] } 10).2
    [⟨11, some 5, some 7⟩] rfl rfl rfl rfl rfl (fun _ _ => rfl) rfl
  ⟨h.1, h.2.1.trans (by decide)⟩

/-- C8 as stated fails: on the sample chain with `GetValidatorsFor` failing, the
run ends on that failed query with both delegation claims already submitted. -/
theorem validators_query_fails_after_claims :
    (main validatorsFailWorld 10).trace.getLast? = some ⟨.getValidatorsFor, false, some 7⟩ ∧
      submissions (main validatorsFailWorld 10).trace =
        [(.claimRewards 11 5 0, true), (.claimRewards 12 6 0, true)] := by
  decide

/-! ## C9: which failures end the run -/

theorem fatalEnds_get (l : List Step) :
    ∀ (i : Nat) (s : Step), FatalEnds l → l[i]? = some s → s.ok = false → s.call.isFatal = true →
      i + 1 = l.length := by
  induction l with
  | nil => intro i s _ hs; simp at hs
  | cons t l ih =>
    intro i s h hs hok hf
    cases i with
    | zero =>
      simp only [List.getElem?_cons_zero, Option.some.injEq] at hs
      subst hs
      rw [h.1 hok hf]
      rfl
    | succ i =>
      simp only [List.getElem?_cons_succ] at hs
      have := ih i s h.2 hs hok hf
      simp only [List.length_cons]
      omega

theorem fatalEnds_append (a b : List Step) (ha : Harmless a) (hb : FatalEnds b) :
    FatalEnds (a ++ b) := by
  induction a with
  | nil => exact hb
  | cons s a ih =>
    refine ⟨fun hok hf => ?_, ih (fun t ht => ha t (List.mem_cons_of_mem _ ht))⟩
    rcases ha s (List.mem_cons_self _ _) with h | h
    · rw [h] at hok
      exact absurd hok (by simp)
    · rw [h] at hf
      exact absurd hf (by simp)

theorem fatalEnds_single (s : Step) : FatalEnds [s] := ⟨fun _ _ => rfl, trivial⟩

theorem fatalEnds_snoc (a : List Step) (s : Step) (ha : Harmless a) : FatalEnds (a ++ [s]) :=
  fatalEnds_append a [s] ha (fatalEnds_single s)

theorem fatalEnds_of_harmless (a : List Step) (ha : Harmless a) : FatalEnds a := by
  have := fatalEnds_append a [] ha trivial
  rwa [List.append_nil] at this

theorem harmless_cons (s : Step) (l : List Step) (hs : s.ok = true ∨ s.call.isFatal = false)
    (hl : Harmless l) : Harmless (s :: l) := by
  intro t ht
  rcases List.mem_cons.mp ht with rfl | ht
  · exact hs
  · exact hl t ht

theorem harmless_append (a b : List Step) (ha : Harmless a) (hb : Harmless b) :
    Harmless (a ++ b) := by
  intro t ht
  rcases List.mem_append.mp ht with h | h
  · exact ha t h
  · exact hb t h

theorem harmless_nil : Harmless [] := fun _ h => absurd h (List.not_mem_nil _)

theorem fatalEnds_claimLoop (w : World) (call : Address → Int → Int → Call) :
    ∀ (ps : List Position) (k : Nat) (auth : TransactOpts),
      FatalEnds (claimLoop w call ps k auth).steps ∧
        ((claimLoop w call ps k auth).stop = none → Harmless (claimLoop w call ps k auth).steps) := by
  intro ps
  induction ps with
  | nil => intro k auth; exact ⟨trivial, fun _ => harmless_nil⟩
  | cons p rest ih =>
    intro k auth
    rw [claimLoop_cons]
    by_cases hs : w.submit k = true
    · rw [if_pos hs]
      obtain ⟨a, b⟩ := ih (k + 1) { auth with Nonce := auth.Nonce + 1 }
      exact ⟨⟨fun hok => absurd hok (by simp), a⟩,
        fun hstop => harmless_cons _ _ (Or.inl rfl) (b hstop)⟩
    · rw [if_neg hs]
      exact ⟨fatalEnds_single _, fun hstop => absurd hstop (by simp)⟩

theorem harmless_pollSteps (e : Nat) (auth : TransactOpts) (seen : List (Nat × Bool)) :
    Harmless (pollSteps e auth seen) := by
  intro s hs
  simp only [pollSteps, List.mem_map] at hs
  obtain ⟨_, _, rfl⟩ := hs
  exact Or.inr rfl

theorem fatalEnds_delegationStep (w : World) (auth : TransactOpts) (k : Nat) :
    FatalEnds (delegationStep w auth k).trace := by
  rcases delegationStep_trace w auth k with h | ⟨v, h, _⟩
  · rw [h]
    exact fatalEnds_single _
  · rw [h]
    exact ⟨fun _ h' => absurd h' (by simp [Call.isFatal]), fatalEnds_single _⟩

theorem fatalEnds_settleAndDelegate (w : World) (fuel : Nat) (auth : TransactOpts) (k : Nat) :
    FatalEnds (settleAndDelegate w fuel auth k).trace := by
  obtain ⟨seen, h | h⟩ := settleAndDelegate_trace w fuel auth k
  · rw [h]
    exact fatalEnds_of_harmless _ (harmless_pollSteps _ _ _)
  · rw [h]
    exact fatalEnds_append _ _ (harmless_pollSteps _ _ _) (fatalEnds_delegationStep w auth k)

theorem fatalEnds_claimValidators (w : World) (fuel : Nat) (auth : TransactOpts) (k : Nat) :
    FatalEnds (claimValidators w fuel auth k).trace := by
  unfold claimValidators
  cases hV : w.getValidatorsFor with
  | none => exact fatalEnds_single _
  | some V =>
    obtain ⟨a, b⟩ := fatalEnds_claimLoop w .claimCommissionRewards
      (V.map ValidatorData.position) k auth
    simp only []
    cases hstop : (claimLoop w .claimCommissionRewards (V.map ValidatorData.position) k auth).stop with
    | some o => exact ⟨fun h => absurd h (by simp), a⟩
    | none =>
      simp only [after_trace]
      exact fatalEnds_append _ _ (harmless_cons _ _ (Or.inl rfl) (b hstop))
        (fatalEnds_settleAndDelegate w fuel _ _)

theorem fatalEnds_workflow (w : World) (fuel : Nat) (auth : TransactOpts) :
    FatalEnds (workflow w fuel auth).trace := by
  unfold workflow
  cases hD : w.getDelegations with
  | none => exact fatalEnds_single _
  | some D =>
    obtain ⟨a, b⟩ := fatalEnds_claimLoop w .claimRewards (D.map DelegationData.position) 0 auth
    simp only []
    cases hstop : (claimLoop w .claimRewards (D.map DelegationData.position) 0 auth).stop with
    | some o => exact ⟨fun h => absurd h (by simp), a⟩
    | none =>
      simp only [after_trace]
      exact fatalEnds_append _ _ (harmless_cons _ _ (Or.inl rfl) (b hstop))
        (fatalEnds_claimValidators w fuel _ _)

theorem harmless_opened (w : World) :
    Harmless [(⟨.hexToECDSA, true, none⟩ : Step), ⟨.dial, true, none⟩,
      ⟨.chainID, w.chainID.isSome, none⟩, ⟨.pendingNonceAt, w.pendingNonceAt.2, none⟩,
      ⟨.suggestGasPrice, w.suggestGasPrice.isSome, none⟩] :=
  harmless_cons _ _ (Or.inl rfl) (harmless_cons _ _ (Or.inl rfl)
    (harmless_cons _ _ (Or.inr rfl) (harmless_cons _ _ (Or.inr rfl)
      (harmless_cons _ _ (Or.inr rfl) harmless_nil))))

theorem harmless_prepared (w : World) :
    Harmless ([(⟨.hexToECDSA, true, none⟩ : Step), ⟨.dial, true, none⟩,
      ⟨.chainID, w.chainID.isSome, none⟩, ⟨.pendingNonceAt, w.pendingNonceAt.2, none⟩,
      ⟨.suggestGasPrice, w.suggestGasPrice.isSome, none⟩] ++
      [⟨.newKeyedTransactor, true, some (wrapInt64 w.pendingNonceAt.1)⟩,
        ⟨.blockNumber, w.blockNumber, some (wrapInt64 w.pendingNonceAt.1)⟩]) :=
  harmless_append _ _ (harmless_opened w)
    (harmless_cons _ _ (Or.inl rfl) (harmless_cons _ _ (Or.inr rfl) harmless_nil))

theorem fatalEnds_main (w : World) (fuel : Nat) : FatalEnds (main w fuel).trace := by
  cases hkey : w.hexToECDSA with
  | false =>
    rw [main_no_key w fuel hkey]
    exact fatalEnds_single _
  | true =>
    cases hdial : w.dial with
    | false =>
      rw [main_no_dial w fuel hkey hdial]
      exact fatalEnds_snoc [_] _ (harmless_cons _ _ (Or.inl rfl) harmless_nil)
    | true =>
      cases htx : w.newKeyedTransactor with
      | false =>
        rw [main_no_transactor w fuel hkey hdial htx]
        exact fatalEnds_snoc _ _ (harmless_opened w)
      | true =>
        cases hcontract : w.newTaraxaDposClient with
        | false =>
          rw [main_no_contract w fuel hkey hdial htx hcontract]
          exact fatalEnds_snoc _ _ (harmless_prepared w)
        | true =>
          rw [main_with_contract w fuel hkey hdial htx hcontract, after_trace]
          exact fatalEnds_append _ _
            (harmless_append _ [_] (harmless_prepared w)
              (harmless_cons _ _ (Or.inl rfl) harmless_nil))
            (fatalEnds_workflow w fuel _)

theorem halts_of_harmless (r : Run) (h : Harmless r.trace) : Halts r := by
  intro s hs hok hf
  rcases h s hs with h1 | h1
  · rw [h1] at hok
    exact absurd hok (by simp)
  · rw [h1] at hf
    exact absurd hf (by simp)

theorem halts_of_outcome (r : Run) (h : r.outcome = .aborted ∨ r.outcome = .panicked) :
    Halts r := fun _ _ _ _ => h

theorem halts_after (r : Run) (pre : List Step) (hpre : Harmless pre) (hr : Halts r) :
    Halts (r.after pre) := by
  intro s hs hok hf
  rw [after_trace] at hs
  rw [after_outcome]
  rcases List.mem_append.mp hs with h | h
  · rcases hpre s h with h1 | h1
    · rw [h1] at hok
      exact absurd hok (by simp)
    · rw [h1] at hf
      exact absurd hf (by simp)
  · exact hr s h hok hf

theorem claimLoop_stop (w : World) (call : Address → Int → Int → Call) :
    ∀ (ps : List Position) (k : Nat) (auth : TransactOpts),
      (claimLoop w call ps k auth).stop = none ∨
        (claimLoop w call ps k auth).stop = some .aborted := by
  intro ps
  induction ps with
  | nil => intro k auth; exact Or.inl rfl
  | cons p rest ih =>
    intro k auth
    rw [claimLoop_cons]
    by_cases hs : w.submit k = true
    · rw [if_pos hs]
      exact ih (k + 1) { auth with Nonce := auth.Nonce + 1 }
    · rw [if_neg hs]
      exact Or.inr rfl

theorem halts_delegationStep (w : World) (auth : TransactOpts) (k : Nat) :
    Halts (delegationStep w auth k) := by
  rcases delegationStep_trace w auth k with h | ⟨v, h, ho⟩
  · apply halts_of_harmless
    rw [h]
    exact harmless_cons _ _ (Or.inr rfl) harmless_nil
  · intro s hs hok hf
    rw [h] at hs
    simp only [List.mem_cons, List.mem_singleton, List.not_mem_nil, or_false] at hs
    rcases hs with rfl | rfl
    · exact absurd hf (by simp [Call.isFatal])
    · have hsub : w.submit k = false := hok
      rw [ho, hsub]
      exact Or.inl rfl

theorem settleAndDelegate_run (w : World) (fuel : Nat) (auth : TransactOpts) (k : Nat) :
    ∃ seen, settleAndDelegate w fuel auth k = ⟨pollSteps (Uint64 auth.Nonce) auth seen, .polling⟩ ∨
      settleAndDelegate w fuel auth k =
        (delegationStep w auth k).after (pollSteps (Uint64 auth.Nonce) auth seen) := by
  refine ⟨(waitForAllConfirmed w.polls (Uint64 auth.Nonce) fuel 0).1, ?_⟩
  simp only [settleAndDelegate]
  by_cases hb : (waitForAllConfirmed w.polls (Uint64 auth.Nonce) fuel 0).2 = true
  · rw [if_pos hb]
    exact Or.inr rfl
  · rw [if_neg hb]
    exact Or.inl rfl

theorem halts_settleAndDelegate (w : World) (fuel : Nat) (auth : TransactOpts) (k : Nat) :
    Halts (settleAndDelegate w fuel auth k) := by
  obtain ⟨seen, h | h⟩ := settleAndDelegate_run w fuel auth k
  · rw [h]
    exact halts_of_harmless _ (harmless_pollSteps _ _ _)
  · rw [h]
    exact halts_after _ _ (harmless_pollSteps _ _ _) (halts_delegationStep w auth k)

theorem halts_claimValidators (w : World) (fuel : Nat) (auth : TransactOpts) (k : Nat) :
    Halts (claimValidators w fuel auth k) := by
  unfold claimValidators
  cases hV : w.getValidatorsFor with
  | none => exact halts_of_outcome _ (Or.inl rfl)
  | some V =>
    obtain ⟨_, b⟩ := fatalEnds_claimLoop w .claimCommissionRewards
      (V.map ValidatorData.position) k auth
    have hstop' := claimLoop_stop w .claimCommissionRewards (V.map ValidatorData.position) k auth
    simp only []
    cases hstop : (claimLoop w .claimCommissionRewards (V.map ValidatorData.position) k auth).stop with
    | some o =>
      rw [hstop] at hstop'
      rcases hstop' with h | h
      · exact absurd h (by simp)
      · simp only [Option.some.injEq] at h
        exact halts_of_outcome _ (Or.inl h)
    | none =>
      exact halts_after _ _ (harmless_cons _ _ (Or.inl rfl) (b hstop))
        (halts_settleAndDelegate w fuel _ _)

theorem halts_workflow (w : World) (fuel : Nat) (auth : TransactOpts) :
    Halts (workflow w fuel auth) := by
  unfold workflow
  cases hD : w.getDelegations with
  | none => exact halts_of_outcome _ (Or.inl rfl)
  | some D =>
    obtain ⟨_, b⟩ := fatalEnds_claimLoop w .claimRewards (D.map DelegationData.position) 0 auth
    have hstop' := claimLoop_stop w .claimRewards (D.map DelegationData.position) 0 auth
    simp only []
    cases hstop : (claimLoop w .claimRewards (D.map DelegationData.position) 0 auth).stop with
    | some o =>
      rw [hstop] at hstop'
      rcases hstop' with h | h
      · exact absurd h (by simp)
      · simp only [Option.some.injEq] at h
        exact halts_of_outcome _ (Or.inl h)
    | none =>
      exact halts_after _ _ (harmless_cons _ _ (Or.inl rfl) (b hstop))
        (halts_claimValidators w fuel _ _)

theorem halts_main (w : World) (fuel : Nat) : Halts (main w fuel) := by
  cases hkey : w.hexToECDSA with
  | false =>
    rw [main_no_key w fuel hkey]
    exact halts_of_outcome _ (Or.inr rfl)
  | true =>
    cases hdial : w.dial with
    | false =>
      rw [main_no_dial w fuel hkey hdial]
      exact halts_of_outcome _ (Or.inl rfl)
    | true =>
      cases htx : w.newKeyedTransactor with
      | false =>
        rw [main_no_transactor w fuel hkey hdial htx]
        exact halts_of_outcome _ (Or.inr rfl)
      | true =>
        cases hcontract : w.newTaraxaDposClient with
        | false =>
          rw [main_no_contract w fuel hkey hdial htx hcontract]
          exact halts_of_outcome _ (Or.inl rfl)
        | true =>
          rw [main_with_contract w fuel hkey hdial htx hcontract]
          exact halts_after _ _
            (harmless_append _ [_] (harmless_prepared w)
              (harmless_cons _ _ (Or.inl rfl) harmless_nil))
            (halts_workflow w fuel _)

/-- C9, amended. In every run of `main`, a failure of the key derivation, the
dial, the transactor construction, the contract binding, a discovery query, a
claim submission or the delegate submission halts the run at once: it is the
last call of the run, nothing is queried or submitted after it, and the run ends
aborted or by panic, never normally. -/
theorem fatal_failure_ends_run (w : World) (fuel i : Nat) (s : Step)
    (hs : (main w fuel).trace[i]? = some s) (hfail : s.ok = false)
    (hfatal : s.call.isFatal = true) :
    i + 1 = (main w fuel).trace.length ∧
      ((main w fuel).outcome = .aborted ∨ (main w fuel).outcome = .panicked) :=
  ⟨fatalEnds_get _ i s (fatalEnds_main w fuel) hs hfail hfatal,
    halts_main w fuel s (List.getElem?_mem hs) hfail hfatal⟩

/-- C9 on the sample chain with the second claim rejected: that submission, call 10
of the run, is its last, and the run ends aborted. -/
theorem fatal_failure_ends_run_witness :
    (main secondClaimFailsWorld 10).trace[10]? = some ⟨.claimRewards 12 6 0, false, some 6⟩ ∧
      10 + 1 = (main secondClaimFailsWorld 10).trace.length ∧
      (main secondClaimFailsWorld 10).outcome = .aborted :=
  have h := fatal_failure_ends_run secondClaimFailsWorld 10 10 ⟨.claimRewards 12 6 0, false, some 6⟩
    (by decide) rfl rfl
  ⟨by decide, h.1, by decide⟩

/-- C9 as stated fails. With the chain-ID query failing, the run goes on to query
the pending nonce and the gas price before it stops; with the first pending-nonce
query failing, on a fresh account, it runs to the end and submits all four
transactions; and a failed balance read, whose error is dropped, does not halt
the run either: it ends normally. -/
theorem run_continues_after_failed_query :
    (main chainIDFailsWorld 10).trace =
        [⟨.hexToECDSA, true, none⟩, ⟨.dial, true, none⟩, ⟨.chainID, false, none⟩,
          ⟨.pendingNonceAt, true, none⟩, ⟨.suggestGasPrice, true, none⟩,
          ⟨.newKeyedTransactor, false, none⟩] ∧
      (main nonceQueryFailsWorld 10).trace[3]? = some ⟨.pendingNonceAt, false, none⟩ ∧
      (main nonceQueryFailsWorld 10).outcome = .finished ∧
      submissions (main nonceQueryFailsWorld 10).trace =
        [(.claimRewards 11 0 0, true), (.claimRewards 12 1 0, true),
          (.claimCommissionRewards 13 2 0, true),
          (.delegate delegateTo 3 10000000000000000000, true)] ∧
      (main balanceFailsWorld 10).trace.getLast? = some ⟨.balanceAt, false, some 8⟩ ∧
      (main balanceFailsWorld 10).outcome = .finished := by
  decide

end TaraxaDelegator
